import Mathlib

/-!
Verification of the terminal-emulation core of `spotty`.

This file gives a shallow embedding of the escape-sequence decoder
(`src/tty/control_code.rs`) and the screen/grid model (`src/screen.rs`,
`src/grid.rs`, `src/color.rs`) of the repository, and proves or refutes the
specification claims about them.

Bytes are modelled as `Nat` (the decoder only inspects values below 256),
`u16` quantities as `Nat` with explicit saturation where the source uses
saturating arithmetic, and the `Terminal` command-sink trait as an inductive
`Cmd` type: the decoder is a pure function from a byte list to the list of
sink calls it makes plus the unconsumed tail.
-/

/-- Direction of a cursor movement (from `control_code.rs`). -/
inductive Direction
  | up
  | down
  | left
  | right
deriving DecidableEq, Repr

/-- Region selector for clear commands (from `control_code.rs`). -/
inductive ClearRegion
  | toEnd
  | toStart
  | all
deriving DecidableEq, Repr

/-- Enable/disable toggle for behaviours (from `control_code.rs`). -/
inductive Toggle
  | enable
  | disable
deriving DecidableEq, Repr

/-- A colour: palette index or direct RGB (from `color.rs` / `control_code.rs`). -/
inductive Color
  | index (i : Nat)
  | rgb (r g b : Nat)
deriving DecidableEq, Repr

/-- One call on the `Terminal` command-sink trait of `control_code.rs`.
The decoder is modelled as emitting a list of these. -/
inductive Cmd
  | text (s : List Char)
  | invalidUtf8 (bytes : List Nat)
  | invalidControlSequence (bytes : List Nat)
  | bell
  | backspace
  | tab
  | carriageReturn
  | lineFeed
  | moveCursor (d : Direction) (steps : Nat)
  | setCursorPos (row col : Nat)
  | clearLine (r : ClearRegion)
  | clearScreen (r : ClearRegion)
  | clearScrollback
  | setBracketedPaste (t : Toggle)
  | setApplicationCursor (t : Toggle)
  | setCharacterStyle (s : Nat)
  | resetCharacterStyle (s : Nat)
  | setForegroundColor (c : Color)
  | resetForegroundColor
  | setBackgroundColor (c : Color)
  | resetBackgroundColor
  | setWindowTitle (s : List Char)
deriving DecidableEq, Repr

/-! ## UTF-8 validation, following `core::str::from_utf8`

`emit_text` in `control_code.rs` relies on `std::str::from_utf8`, whose
`valid_up_to`/`error_len` semantics we reproduce here: `error_len` is `None`
exactly when the slice ends in a proper prefix of a multi-byte sequence, and
otherwise gives the number of bytes of the rejected maximal subpart. -/

/-- Width assigned to a leading byte by Rust's `UTF8_CHAR_WIDTH` table. -/
def utf8Width (b : Nat) : Nat :=
  if b ≤ 0x7F then 1
  else if 0xC2 ≤ b ∧ b ≤ 0xDF then 2
  else if 0xE0 ≤ b ∧ b ≤ 0xEF then 3
  else if 0xF0 ≤ b ∧ b ≤ 0xF4 then 4
  else 0

/-- Is `b` a UTF-8 continuation byte (`0x80..=0xBF`)? -/
def isCont (b : Nat) : Bool :=
  0x80 ≤ b && b ≤ 0xBF

/-- Valid second byte for a three-byte sequence with leading byte `b`. -/
def valid3 (b b1 : Nat) : Bool :=
  (b == 0xE0 && 0xA0 ≤ b1 && b1 ≤ 0xBF) ||
  (0xE1 ≤ b && b ≤ 0xEC && isCont b1) ||
  (b == 0xED && 0x80 ≤ b1 && b1 ≤ 0x9F) ||
  (0xEE ≤ b && b ≤ 0xEF && isCont b1)

/-- Valid second byte for a four-byte sequence with leading byte `b`. -/
def valid4 (b b1 : Nat) : Bool :=
  (b == 0xF0 && 0x90 ≤ b1 && b1 ≤ 0xBF) ||
  (0xF1 ≤ b && b ≤ 0xF3 && isCont b1) ||
  (b == 0xF4 && 0x80 ≤ b1 && b1 ≤ 0x8F)

/-- Result of trying to decode one character from the front of a byte list. -/
inductive Utf8Step
  | ok (scalar : Nat) (consumed : Nat)
  | incomplete
  | invalid (len : Nat)
deriving DecidableEq, Repr

/-- Decode one character from the front of a byte list, mirroring
`run_utf8_validation` of Rust's core library (including the exact
`error_len` values). -/
def utf8DecodeFirst : List Nat → Utf8Step
  | [] => .incomplete
  | b :: rest =>
    if b < 0x80 then .ok b 1
    else if utf8Width b = 2 then
      match rest with
      | [] => .incomplete
      | b1 :: _ =>
        if isCont b1 then .ok ((b - 0xC0) * 0x40 + (b1 - 0x80)) 2 else .invalid 1
    else if utf8Width b = 3 then
      match rest with
      | [] => .incomplete
      | b1 :: rest2 =>
        if valid3 b b1 then
          match rest2 with
          | [] => .incomplete
          | b2 :: _ =>
            if isCont b2 then
              .ok ((b - 0xE0) * 0x1000 + (b1 - 0x80) * 0x40 + (b2 - 0x80)) 3
            else .invalid 2
        else .invalid 1
    else if utf8Width b = 4 then
      match rest with
      | [] => .incomplete
      | b1 :: rest2 =>
        if valid4 b b1 then
          match rest2 with
          | [] => .incomplete
          | b2 :: rest3 =>
            if isCont b2 then
              match rest3 with
              | [] => .incomplete
              | b3 :: _ =>
                if isCont b3 then
                  .ok ((b - 0xF0) * 0x40000 + (b1 - 0x80) * 0x1000 +
                       (b2 - 0x80) * 0x40 + (b3 - 0x80)) 4
                else .invalid 3
            else .invalid 2
        else .invalid 1
    else .invalid 1

/-- How a greedy decoding run ends: at the end of the bytes, at a truncated
final character, or at an invalid subpart of the given length. -/
inductive Utf8RunEnd
  | complete
  | incomplete
  | invalid (len : Nat)
deriving DecidableEq, Repr

/-- Fuelled greedy decoder: decode characters until the bytes end or an
error position is reached; returns the decoded characters, the bytes from
the error position on, and how the run ended.  Fuel at least the length of
the list is always sufficient. -/
def utf8RunF : Nat → List Nat → List Char × List Nat × Utf8RunEnd
  | _, [] => ([], [], .complete)
  | 0, l => ([], l, .incomplete)
  | fuel + 1, b :: rest =>
    match utf8DecodeFirst (b :: rest) with
    | .ok c n =>
      let p := utf8RunF fuel ((b :: rest).drop n)
      (Char.ofNat c :: p.1, p.2.1, p.2.2)
    | .incomplete => ([], b :: rest, .incomplete)
    | .invalid n => ([], b :: rest, .invalid n)

/-- Greedy UTF-8 decoding run (with always-sufficient fuel). -/
def utf8Run (l : List Nat) : List Char × List Nat × Utf8RunEnd :=
  utf8RunF l.length l

/-- Fuelled model of `emit_text` in `control_code.rs`: repeatedly decode the
maximal valid prefix, emit it as one `text` call, report invalid subparts as
`invalid_utf8` calls, and return a truncated trailing character as the
unconsumed residue. -/
def emitTextF : Nat → List Nat → List Cmd × List Nat
  | _, [] => ([], [])
  | 0, l => ([], l)
  | fuel + 1, b :: rest =>
    match utf8Run (b :: rest) with
    | (cs, _, .complete) => ([.text cs], [])
    | (cs, r, .incomplete) => ([.text cs], r)
    | (cs, r, .invalid n) =>
      let p := emitTextF fuel (r.drop n)
      (.text cs :: .invalidUtf8 (r.take n) :: p.1, p.2)

/-- Model of `emit_text` in `control_code.rs` (with always-sufficient fuel). -/
def emit_text (l : List Nat) : List Cmd × List Nat :=
  emitTextF l.length l

/-! ## Control-sequence parsing (`parse_control_sequence` and friends) -/

/-- Result of a byte-consuming sub-parser: success or syntactic invalidity
(both carrying the sink calls already made and the bytes after the consumed
portion), or "ran out of bytes before a decision" (in which case the source
provably makes no sink call, so no commands are carried). -/
inductive CtrlResult
  | ok (cmds : List Cmd) (rest : List Nat)
  | incomplete
  | invalid (cmds : List Cmd) (rest : List Nat)
deriving DecidableEq, Repr

/-- Model of `util::take_while`: longest prefix satisfying `p`, plus the
rest; `none` (incomplete) exactly when the scan runs off the end. -/
def takeWhileInc (p : Nat → Bool) : List Nat → Option (List Nat × List Nat)
  | [] => none
  | b :: rest =>
    if p b then
      match takeWhileInc p rest with
      | none => none
      | some (pre, post) => some (b :: pre, post)
    else some ([], b :: rest)

/-- Model of `Argument::single`: parse an unsigned decimal numeral from the
whole slice; `none` on a non-digit byte or on `u16` overflow.  The numeric
value `0` plays the role of the absent `NonZeroU16`. -/
def argSingleGo (acc : Nat) : List Nat → Option Nat
  | [] => some acc
  | b :: rest =>
    if 0x30 ≤ b ∧ b ≤ 0x39 then
      let v := acc * 10 + (b - 0x30)
      if v ≤ 65535 then argSingleGo v rest else none
    else none

/-- Model of `Argument::single` on a parameter slice. -/
def argSingle (l : List Nat) : Option Nat :=
  argSingleGo 0 l

/-- Model of `Argument::with_default`. -/
def withDefault (d v : Nat) : Nat :=
  if v = 0 then d else v

/-- Is this byte an argument separator (`;` or `:`)? -/
def isArgSep (b : Nat) : Bool :=
  b == 0x3B || b == 0x3A

/-- Split a parameter slice at every byte satisfying `sep`, like Rust's
`slice::split` (an empty slice yields one empty group). -/
def splitSep (sep : Nat → Bool) : List Nat → List (List Nat)
  | [] => [[]]
  | b :: rest =>
    if sep b then [] :: splitSep sep rest
    else
      match splitSep sep rest with
      | [] => [[b]]
      | g :: gs => (b :: g) :: gs

/-- Model of `Argument::multi::<2>` as used by the `H` terminator. -/
def argMulti2 (l : List Nat) : Option (Nat × Nat) :=
  match splitSep isArgSep l with
  | [a] =>
    match argSingle a with
    | none => none
    | some x => some (x, 0)
  | [a, b] =>
    match argSingle a, argSingle b with
    | some x, some y => some (x, y)
    | _, _ => none
  | _ => none

/-- Model of `ArgumentList::next` applied once to a group: the bytes before
the first `;`/`:` separator. -/
def firstSeg (g : List Nat) : List Nat :=
  g.takeWhile (fun b => !isArgSep b)

/-- One `;`-separated SGR parameter group of `parse_character_attribute`:
the sink calls it makes, or `none` when the code is unrecognized.  The
`40..=47` arm subtracts 30, exactly as the source does. -/
def sgrGroup (g : List Nat) : Option (List Cmd) :=
  match argSingle (firstSeg g) with
  | none => none
  | some v =>
    let k := withDefault 0 v
    if k = 0 then
      some [.resetCharacterStyle 0xFF, .resetForegroundColor, .resetBackgroundColor]
    else if k = 1 then some [.setCharacterStyle 0x01]
    else if k = 21 then some [.resetCharacterStyle 0x01]
    else if k = 2 then some [.setCharacterStyle 0x02]
    else if k = 22 then some [.resetCharacterStyle 0x02]
    else if k = 3 then some [.setCharacterStyle 0x04]
    else if k = 23 then some [.resetCharacterStyle 0x04]
    else if k = 4 then some [.setCharacterStyle 0x08]
    else if k = 24 then some [.resetCharacterStyle 0x08]
    else if k = 5 then some [.setCharacterStyle 0x10]
    else if k = 25 then some [.resetCharacterStyle 0x10]
    else if k = 7 then some [.setCharacterStyle 0x20]
    else if k = 27 then some [.resetCharacterStyle 0x20]
    else if k = 8 then some [.setCharacterStyle 0x40]
    else if k = 28 then some [.resetCharacterStyle 0x40]
    else if k = 9 then some [.setCharacterStyle 0x80]
    else if k = 29 then some [.resetCharacterStyle 0x80]
    else if 30 ≤ k ∧ k ≤ 37 then some [.setForegroundColor (.index (k - 30))]
    else if 90 ≤ k ∧ k ≤ 97 then some [.setForegroundColor (.index (k - 90))]
    else if k = 39 then some [.resetForegroundColor]
    else if 40 ≤ k ∧ k ≤ 47 then some [.setBackgroundColor (.index (k - 30))]
    else if 100 ≤ k ∧ k ≤ 107 then some [.setBackgroundColor (.index (k - 100))]
    else if k = 49 then some [.resetBackgroundColor]
    else none

/-- The group loop of `parse_character_attribute`: sink calls accumulate
until an unrecognized code aborts the sequence (calls already made stay). -/
def sgrGroups : List (List Nat) → List Cmd × Bool
  | [] => ([], true)
  | g :: gs =>
    match sgrGroup g with
    | none => ([], false)
    | some cmds =>
      let (more, ok) := sgrGroups gs
      (cmds ++ more, ok)

/-- Model of `parse_character_attribute`: split the parameters on `;` and
process each group. -/
def parse_character_attribute (params : List Nat) : List Cmd × Bool :=
  sgrGroups (splitSep (fun b => b == 0x3B) params)

/-- Model of `parse_question_terminator_toggle`: only private-mode codes 1
(application cursor) and 2004 (bracketed paste) are recognized. -/
def parse_question_terminator_toggle (params : List Nat) (t : Toggle) : List Cmd × Bool :=
  match argSingle params with
  | none => ([], false)
  | some v =>
    let k := withDefault 0 v
    if k = 1 then ([.setApplicationCursor t], true)
    else if k = 2004 then ([.setBracketedPaste t], true)
    else ([], false)

/-- Model of `parse_escape_question_terminator`. -/
def parse_escape_question_terminator (params : List Nat) (term : Nat) : List Cmd × Bool :=
  if term = 0x68 then parse_question_terminator_toggle params .enable
  else if term = 0x6C then parse_question_terminator_toggle params .disable
  else ([], false)

/-- Cursor-movement arm of `parse_escape_standard_terminator`. -/
def moveArm (d : Direction) (params : List Nat) : List Cmd × Bool :=
  match argSingle params with
  | none => ([], false)
  | some v => ([.moveCursor d (withDefault 1 v)], true)

/-- Model of `parse_escape_standard_terminator`: dispatch on the terminator
byte; returns the sink calls made and whether the sequence was accepted. -/
def parse_escape_standard_terminator (params : List Nat) (term : Nat) : List Cmd × Bool :=
  if term = 0x6D then parse_character_attribute params
  else if term = 0x41 then moveArm .up params
  else if term = 0x42 then moveArm .down params
  else if term = 0x43 then moveArm .right params
  else if term = 0x44 then moveArm .left params
  else if term = 0x48 then
    match argMulti2 params with
    | none => ([], false)
    | some (r, c) => ([.setCursorPos (withDefault 1 r - 1) (withDefault 1 c - 1)], true)
  else if term = 0x4A then
    match argSingle params with
    | none => ([], false)
    | some v =>
      let k := withDefault 0 v
      if k = 0 then ([.clearScreen .toEnd], true)
      else if k = 1 then ([.clearScreen .toStart], true)
      else if k = 2 then ([.clearScreen .all], true)
      else if k = 3 then ([.clearScrollback], true)
      else ([], false)
  else if term = 0x4B then
    match argSingle params with
    | none => ([], false)
    | some v =>
      let k := withDefault 0 v
      if k = 0 then ([.clearLine .toEnd], true)
      else if k = 1 then ([.clearLine .toStart], true)
      else if k = 2 then ([.clearLine .all], true)
      else ([], false)
  else ([], false)

/-- Result of `parse_control_sequence_parts`. -/
inductive PartsResult
  | ok (params inter : List Nat) (term : Nat) (rest : List Nat)
  | incomplete
  | invalid (rest : List Nat)
deriving DecidableEq, Repr

/-- Model of `parse_control_sequence_parts`: parameter bytes `0x30..=0x3F`,
intermediate bytes `0x20..=0x2F`, then a terminator in `0x40..=0x7E`. -/
def parse_control_sequence_parts (l : List Nat) : PartsResult :=
  match takeWhileInc (fun b => 0x30 ≤ b && b ≤ 0x3F) l with
  | none => .incomplete
  | some (params, l1) =>
    match takeWhileInc (fun b => 0x20 ≤ b && b ≤ 0x2F) l1 with
    | none => .incomplete
    | some (inter, l2) =>
      match l2 with
      | [] => .incomplete
      | t :: l3 =>
        if 0x40 ≤ t && t ≤ 0x7E then .ok params inter t l3
        else .invalid l3

/-- Attach an ok/invalid flag and the rest of the bytes to the output of a
non-consuming dispatcher. -/
def mkCtrl (out : List Cmd × Bool) (rest : List Nat) : CtrlResult :=
  if out.2 then .ok out.1 rest else .invalid out.1 rest

/-- Model of `parse_escape_control_sequence` (CSI). -/
def parse_escape_control_sequence (l : List Nat) : CtrlResult :=
  match parse_control_sequence_parts l with
  | .incomplete => .incomplete
  | .invalid rest => .invalid [] rest
  | .ok params inter term rest =>
    if inter.isEmpty then
      if params.head? = some 0x3F then
        mkCtrl (parse_escape_question_terminator params.tail term) rest
      else mkCtrl (parse_escape_standard_terminator params term) rest
    else .invalid [] rest

/-- Model of `parse_operating_system_command` (OSC). -/
def parse_operating_system_command (l : List Nat) : CtrlResult :=
  match takeWhileInc (fun b => 0x30 ≤ b && b ≤ 0x39) l with
  | none => .incomplete
  | some (numbers, l1) =>
    match takeWhileInc (fun b => 0x20 ≤ b && b ≤ 0x7E) l1 with
    | none => .incomplete
    | some (params, l2) =>
      match l2 with
      | [] => .incomplete
      | t :: l3 =>
        if t = 0x07 then
          if params.head? = some 0x3B then
            if params.tail = [0x3F] then .invalid [] l3
            else
              match argSingle numbers with
              | none => .invalid [] l3
              | some v =>
                let k := withDefault 0 v
                if k = 0 then .ok [.setWindowTitle (params.tail.map Char.ofNat)] l3
                else if k = 1 then .ok [] l3
                else if k = 2 then .ok [.setWindowTitle (params.tail.map Char.ofNat)] l3
                else if k = 3 then .ok [] l3
                else .invalid [] l3
          else .invalid [] l3
        else .invalid [] l3

/-- Model of `parse_escape_sequence`: dispatch on the byte after `ESC`. -/
def parse_escape_sequence (l : List Nat) : CtrlResult :=
  match l with
  | [] => .incomplete
  | b :: rest =>
    if b = 0x5B then parse_escape_control_sequence rest
    else if b = 0x5D then parse_operating_system_command rest
    else if b = 0x28 then
      match rest with
      | [] => .incomplete
      | _ :: r2 => .ok [] r2
    else .invalid [] rest

/-- Model of `parse_control_sequence`: dispatch on the control byte. -/
def parse_control_sequence (l : List Nat) : CtrlResult :=
  match l with
  | [] => .incomplete
  | b :: rest =>
    if b = 0x07 then .ok [.bell] rest
    else if b = 0x08 then .ok [.backspace] rest
    else if b = 0x09 then .ok [.tab] rest
    else if b = 0x0D then .ok [.carriageReturn] rest
    else if b = 0x0A then .ok [.lineFeed] rest
    else if b = 0x1B then parse_escape_sequence rest
    else .invalid [] rest

/-! ## The top-level decoder `parse` -/

/-- Rust's `u8::is_ascii_control`: `0x00..=0x1F` or `0x7F`. -/
def isAsciiControl (b : Nat) : Bool :=
  b ≤ 0x1F || b == 0x7F

/-- Negation of `isAsciiControl`, the text-run predicate of `parse`. -/
def notCtrl (b : Nat) : Bool :=
  !isAsciiControl b

/-- The `invalid_utf8` flush that `parse` performs on the incomplete tail of
a text run that is followed by a control byte. -/
def utf8Flush (tr : List Nat) : List Cmd :=
  if tr.isEmpty then [] else [.invalidUtf8 tr]

/-- Fuelled model of the main loop of `parse`: alternate between flushing a
text run and dispatching one control sequence; on an incomplete sequence
return everything from the current control byte as the unconsumed tail.
Fuel at least the length of the input is always sufficient. -/
def parseF : Nat → List Nat → List Cmd × List Nat
  | _, [] => ([], [])
  | 0, bytes => ([], bytes)
  | fuel + 1, bytes =>
    let run := bytes.takeWhile notCtrl
    let rest := bytes.dropWhile notCtrl
    match rest with
    | [] => emit_text run
    | _ :: _ =>
      let t := emit_text run
      match parse_control_sequence rest with
      | .ok cc rest2 =>
        let p := parseF fuel rest2
        (t.1 ++ utf8Flush t.2 ++ cc ++ p.1, p.2)
      | .incomplete => (t.1 ++ utf8Flush t.2, rest)
      | .invalid cc rest2 =>
        let consumed := rest.take (rest.length - rest2.length)
        let p := parseF fuel rest2
        (t.1 ++ utf8Flush t.2 ++ cc ++ .invalidControlSequence consumed :: p.1, p.2)

/-- Model of `parse` in `control_code.rs`: the sink calls made on the
`Terminal`, in order, together with the unconsumed tail. -/
def parse (bytes : List Nat) : List Cmd × List Nat :=
  parseF bytes.length bytes

/-! ## Grid model (`grid.rs`) -/

/-- Default colours from `color.rs`. -/
def DEFAULT_FOREGROUND : Color := .index 15

/-- Default background colour from `color.rs`. -/
def DEFAULT_BACKGROUND : Color := .index 0

/-- Default cursor colour from `color.rs`. -/
def DEFAULT_CURSOR : Color := DEFAULT_FOREGROUND

/-- A grid cell (from `grid.rs`); the style flags are the `u8` bitflags of
`CharacterStyles`. -/
structure GridCell where
  character : Char
  foreground : Color
  background : Color
  style : Nat
deriving DecidableEq, Repr

/-- The blank cell `GridCell::empty()`. -/
def GridCell.emptyCell : GridCell :=
  ⟨' ', DEFAULT_FOREGROUND, DEFAULT_BACKGROUND, 0⟩

/-- A position on the grid (from `grid.rs`). -/
structure Position where
  row : Nat
  col : Nat
deriving DecidableEq, Repr

/-- One bound of a Rust `RangeBounds` argument. -/
inductive Bnd
  | incl (n : Nat)
  | excl (n : Nat)
  | unb
deriving DecidableEq, Repr

/-- Model of `into_exclusive_range` in `grid.rs`: convert two bounds into a
half-open range, clamping both ends to `max`. -/
def intoExclusiveRange (s e : Bnd) (max : Nat) : Nat × Nat :=
  let start := match s with
    | .incl n => n
    | .excl n => n + 1
    | .unb => 0
  let stop := match e with
    | .incl n => n + 1
    | .excl n => n
    | .unb => max
  (min start max, min stop max)

/-- Overwrite the cells at indices `[a, b)` with `c`, the model of
`cells[a..b].fill(c)`. -/
def fillCells (l : List GridCell) (a b : Nat) (c : GridCell) : List GridCell :=
  (List.range l.length).map fun i => if a ≤ i ∧ i < b then c else l.getD i GridCell.emptyCell

/-- Fill columns `[cstart, cend)` of every row in the given list, the model
of the slow path of `fill_region`. -/
def fillRowsGo (cols cstart cend : Nat) (c : GridCell) : List Nat → List GridCell → List GridCell
  | [], cells => cells
  | row :: rows, cells =>
    fillRowsGo cols cstart cend c rows (fillCells cells (row * cols + cstart) (row * cols + cend) c)

/-- Model of `slice::copy_within(s..e, d)` (memmove semantics: every read
comes from the original list). -/
def copyWithin (l : List GridCell) (s e d : Nat) : List GridCell :=
  (List.range l.length).map fun i =>
    if d ≤ i ∧ i < d + (e - s) then l.getD (s + i - d) GridCell.emptyCell
    else l.getD i GridCell.emptyCell

/-- The character grid (from `grid.rs`): row-major cells. -/
structure CharacterGrid where
  rows : Nat
  cols : Nat
  cells : List GridCell
deriving DecidableEq, Repr

/-- Model of `CharacterGrid::new`. -/
def CharacterGrid.new (rows cols : Nat) : CharacterGrid :=
  ⟨rows, cols, List.replicate (cols * rows) GridCell.emptyCell⟩

/-- Model of `max_row` (`u16` subtraction; the grid always has at least one
row in every reachable state). -/
def CharacterGrid.maxRow (g : CharacterGrid) : Nat :=
  g.rows - 1

/-- Model of `max_col`. -/
def CharacterGrid.maxCol (g : CharacterGrid) : Nat :=
  g.cols - 1

/-- Model of `fill_region` in `grid.rs`, including its fast path whose guard
compares the column range's end against `max_col()`. -/
def CharacterGrid.fill_region (g : CharacterGrid) (rs re cs ce : Bnd) (cell : GridCell) :
    CharacterGrid :=
  let r := intoExclusiveRange rs re g.rows
  let c := intoExclusiveRange cs ce g.cols
  if c.1 = 0 ∧ c.2 = g.maxCol then
    { g with cells := fillCells g.cells (r.1 * g.cols) (r.2 * g.cols) cell }
  else
    { g with cells := fillRowsGo g.cols c.1 c.2 cell (List.range' r.1 (r.2 - r.1)) g.cells }

/-- Model of `copy_rows` in `grid.rs`. -/
def CharacterGrid.copy_rows (g : CharacterGrid) (rs re : Bnd) (dstRow : Nat) : CharacterGrid :=
  let r := intoExclusiveRange rs re g.rows
  { g with cells := copyWithin g.cells (r.1 * g.cols) (r.2 * g.cols) (dstRow * g.cols) }

/-- The cell at `(row, col)` of a grid. -/
def CharacterGrid.cellAt (g : CharacterGrid) (row col : Nat) : GridCell :=
  g.cells.getD (row * g.cols + col) GridCell.emptyCell

/-! ## Screen model (`screen.rs`) -/

/-- Modelled from the spec: the cursor style (shape and blink) referenced by
`screen.rs`; its defining type is not under `src/` and no claim inspects it. -/
structure CursorStyle where
  shape : Nat
  blink : Bool
deriving DecidableEq, Repr

/-- Modelled from the spec: the default cursor style. -/
def CursorStyle.DEFAULT : CursorStyle :=
  ⟨0, true⟩

/-- Modelled from the spec: the named behaviours toggled by private-mode
sequences; the defining enum is referenced by `screen.rs` but not under
`src/`.  The wildcard arm of `toggle_behaviour` is represented by
`applicationCursor`. -/
inductive Behaviour
  | showCursor
  | alternateBuffer
  | bracketedPaste
  | applicationCursor
deriving DecidableEq, Repr

/-- Modelled from the spec: `Toggle::is_enabled`. -/
def Toggle.isEnabled : Toggle → Bool
  | .enable => true
  | .disable => false

/-- The boolean behaviours owned by the screen (from `screen.rs`). -/
structure Behaviours where
  show_cursor : Bool
  alternate_buffer : Bool
  bracketed_paste : Bool
deriving DecidableEq, Repr

/-- Model of `Behaviours::default`. -/
def Behaviours.default : Behaviours :=
  ⟨true, false, false⟩

/-- The screen state (from `screen.rs`). -/
structure Screen where
  title : String
  grid : CharacterGrid
  alternateGrid : CharacterGrid
  cursor : Position
  savedCursor : Position
  cursorStyle : CursorStyle
  cursorColor : Color
  style : Nat
  foreground : Color
  background : Color
  scrollingRegion : Nat × Nat
  behaviours : Behaviours
  residualInput : List Nat
deriving DecidableEq, Repr

/-- Model of `Screen::new`. -/
def Screen.new (rows cols : Nat) : Screen where
  title := "spotty"
  grid := CharacterGrid.new rows cols
  alternateGrid := CharacterGrid.new rows cols
  cursor := ⟨0, 0⟩
  savedCursor := ⟨0, 0⟩
  cursorStyle := CursorStyle.DEFAULT
  cursorColor := DEFAULT_CURSOR
  style := 0
  foreground := DEFAULT_FOREGROUND
  background := DEFAULT_BACKGROUND
  scrollingRegion := (0, rows)
  behaviours := Behaviours.default
  residualInput := []

/-- Model of `Screen::empty_cell`: note the default background colour and
the screen's *current* style flags. -/
def Screen.empty_cell (s : Screen) : GridCell :=
  ⟨' ', DEFAULT_FOREGROUND, DEFAULT_BACKGROUND, s.style⟩

/-- Model of `Screen::clear_region`. -/
def Screen.clear_region (s : Screen) (rs re cs ce : Bnd) : Screen :=
  { s with grid := s.grid.fill_region rs re cs ce s.empty_cell }

/-- Model of `Screen::clear_current_line`. -/
def Screen.clear_current_line (s : Screen) (cs ce : Bnd) : Screen :=
  s.clear_region (.incl s.cursor.row) (.incl s.cursor.row) cs ce

/-- Model of `Screen::clear_line` (the `Terminal` impl). -/
def Screen.clear_line (s : Screen) (r : ClearRegion) : Screen :=
  match r with
  | .toEnd => s.clear_current_line (.incl s.cursor.col) .unb
  | .toStart => s.clear_current_line .unb (.incl s.cursor.col)
  | .all => s.clear_current_line .unb .unb

/-- Model of `Screen::clear_screen` (the `Terminal` impl). -/
def Screen.clear_screen (s : Screen) (r : ClearRegion) : Screen :=
  match r with
  | .toEnd =>
    let s1 := s.clear_current_line (.incl s.cursor.col) .unb
    s1.clear_region (.incl (s1.cursor.row + 1)) .unb .unb .unb
  | .toStart =>
    let s1 := s.clear_region .unb (.excl s.cursor.row) .unb .unb
    s1.clear_current_line .unb (.incl s1.cursor.col)
  | .all => s.clear_region .unb .unb .unb .unb

/-- Model of `Screen::scroll_up`. -/
def Screen.scroll_up (s : Screen) (count : Nat) : Screen :=
  let copyDestination := s.scrollingRegion.1
  let copyStart := s.scrollingRegion.1 + count
  let copyEnd := s.scrollingRegion.2
  if copyStart > copyEnd then s
  else
    let s1 := { s with grid := s.grid.copy_rows (.incl copyStart) (.excl copyEnd) copyDestination }
    s1.clear_region (.incl (s.scrollingRegion.2 - count)) (.excl s.scrollingRegion.2) .unb .unb

/-- Model of `Screen::scroll_down`: the copy destination is the absolute row
`count` and the cleared row range is `start..count`, exactly as in the
source. -/
def Screen.scroll_down (s : Screen) (count : Nat) : Screen :=
  let copyDestination := count
  let copyStart := s.scrollingRegion.1
  let copyEnd := s.scrollingRegion.2 - count
  if copyStart > copyEnd then s
  else
    let s1 := { s with grid := s.grid.copy_rows (.incl copyStart) (.excl copyEnd) copyDestination }
    s1.clear_region (.incl s.scrollingRegion.1) (.excl count) .unb .unb

/-- Model of `Screen::advance_row`. -/
def Screen.advance_row (s : Screen) : Screen :=
  if s.cursor.row < s.scrollingRegion.2 - 1 then
    { s with cursor := ⟨s.cursor.row + 1, s.cursor.col⟩ }
  else s.scroll_up 1

/-- Model of `Screen::advance_column`. -/
def Screen.advance_column (s : Screen) : Screen :=
  if s.cursor.col < s.grid.cols then
    { s with cursor := ⟨s.cursor.row, s.cursor.col + 1⟩ }
  else
    Screen.advance_row { s with cursor := ⟨s.cursor.row, 0⟩ }

/-- Model of `Screen::insert_char`. -/
def Screen.insert_char (s : Screen) (ch : Char) : Screen :=
  let s :=
    if s.cursor.col = s.grid.cols then
      Screen.advance_row { s with cursor := ⟨s.cursor.row, 0⟩ }
    else s
  let cell : GridCell := ⟨ch, s.foreground, s.background, s.style⟩
  let s := { s with grid :=
    { s.grid with cells := s.grid.cells.set (s.cursor.row * s.grid.cols + s.cursor.col) cell } }
  s.advance_column

/-- Model of the `text` sink method of the `Terminal` impl on `Screen`. -/
def Screen.textOp (s : Screen) (cs : List Char) : Screen :=
  cs.foldl Screen.insert_char s

/-- Model of the `tab` sink method: advance at least once, until the column
is a multiple of 8 (eight advances always reach one or wrap to column 0). -/
def Screen.tabGo : Nat → Screen → Screen
  | 0, s => s
  | n + 1, s =>
    let s1 := s.advance_column
    if s1.cursor.col % 8 = 0 then s1 else Screen.tabGo n s1

/-- Model of the `tab` sink method of `screen.rs`. -/
def Screen.tabOp (s : Screen) : Screen :=
  Screen.tabGo 8 s

/-- Model of the `backspace` sink method. -/
def Screen.backspaceOp (s : Screen) : Screen :=
  if 0 < s.cursor.col then { s with cursor := ⟨s.cursor.row, s.cursor.col - 1⟩ }
  else { s with cursor := ⟨s.cursor.row, s.grid.cols - 1⟩ }

/-- Model of the `move_cursor` sink method (saturating arithmetic, clamping
down/right to the grid's maxima). -/
def Screen.move_cursor (s : Screen) (d : Direction) (steps : Nat) : Screen :=
  match d with
  | .up => { s with cursor := ⟨s.cursor.row - steps, s.cursor.col⟩ }
  | .down => { s with cursor := ⟨min (s.cursor.row + steps) s.grid.maxRow, s.cursor.col⟩ }
  | .left => { s with cursor := ⟨s.cursor.row, s.cursor.col - steps⟩ }
  | .right => { s with cursor := ⟨s.cursor.row, min (s.cursor.col + steps) s.grid.maxCol⟩ }

/-- Model of `set_cursor_row`. -/
def Screen.set_cursor_row (s : Screen) (row : Nat) : Screen :=
  { s with cursor := ⟨min row s.grid.maxRow, s.cursor.col⟩ }

/-- Model of `set_cursor_col`. -/
def Screen.set_cursor_col (s : Screen) (col : Nat) : Screen :=
  { s with cursor := ⟨s.cursor.row, min col s.grid.maxCol⟩ }

/-- Model of `set_cursor_pos`: set the row, then the column, each clamped
independently. -/
def Screen.set_cursor_pos (s : Screen) (row col : Nat) : Screen :=
  (s.set_cursor_row row).set_cursor_col col

/-- Remove style bits, as `CharacterStyles::remove` does on `u8` flags. -/
def styleRemove (style bits : Nat) : Nat :=
  style.land (Nat.xor 0xFF bits)

/-- Model of `toggle_behaviour` in `screen.rs`: the alternate-buffer arm
swaps the grids only on an actual state transition. -/
def Screen.toggle_behaviour (s : Screen) (b : Behaviour) (t : Toggle) : Screen :=
  match b with
  | .showCursor => { s with behaviours := { s.behaviours with show_cursor := t.isEnabled } }
  | .alternateBuffer =>
    if t.isEnabled ≠ s.behaviours.alternate_buffer then
      { s with
        grid := s.alternateGrid
        alternateGrid := s.grid
        behaviours := { s.behaviours with alternate_buffer := t.isEnabled } }
    else s
  | .bracketedPaste => { s with behaviours := { s.behaviours with bracketed_paste := t.isEnabled } }
  | .applicationCursor => s

/-- Apply one decoded command to the screen, following the `Terminal` impl
in `screen.rs`.  `clear_scrollback` is `todo!()` in the source and the impl
under `src/` provides no `set_bracketed_paste`/`set_application_cursor`
methods, so these return `none`. -/
def Screen.applyCmd (s : Screen) : Cmd → Option Screen
  | .text cs => some (s.textOp cs)
  | .invalidUtf8 _ => some (s.insert_char (Char.ofNat 0xFFFD))
  | .invalidControlSequence _ => some s
  | .bell => some s
  | .backspace => some s.backspaceOp
  | .tab => some s.tabOp
  | .carriageReturn => some { s with cursor := ⟨s.cursor.row, 0⟩ }
  | .lineFeed => some s.advance_row
  | .moveCursor d n => some (s.move_cursor d n)
  | .setCursorPos r c => some (s.set_cursor_pos r c)
  | .clearLine r => some (s.clear_line r)
  | .clearScreen r => some (s.clear_screen r)
  | .clearScrollback => none
  | .setBracketedPaste _ => none
  | .setApplicationCursor _ => none
  | .setCharacterStyle st => some { s with style := s.style.lor st }
  | .resetCharacterStyle st => some { s with style := styleRemove s.style st }
  | .setForegroundColor c => some { s with foreground := c }
  | .resetForegroundColor => some { s with foreground := DEFAULT_FOREGROUND }
  | .setBackgroundColor c => some { s with background := c }
  | .resetBackgroundColor => some { s with background := DEFAULT_BACKGROUND }
  | .setWindowTitle cs => some { s with title := String.mk cs }

/-- Model of `Screen::process_input`: prepend the residual bytes, decode,
apply every command in order, and keep the new unconsumed tail. -/
def Screen.process_input (s : Screen) (input : List Nat) : Option Screen :=
  let bytes := s.residualInput ++ input
  let (cmds, res) := parse bytes
  match cmds.foldlM Screen.applyCmd { s with residualInput := [] } with
  | none => none
  | some s1 => some { s1 with residualInput := s1.residualInput ++ res }

/-! ## Observation up to re-chunking of text

Splitting an input into chunks can only re-chunk the `text` calls (a text
run cut at a chunk boundary is flushed as two calls).  Expanding every
`text` call into one call per character gives a canonical form under which
the chunked and unchunked call sequences coincide. -/

/-- Expand one command: a `text` call becomes one single-character `text`
call per character; every other command is unchanged. -/
def expandCmd : Cmd → List Cmd
  | .text s => s.map (fun ch => .text [ch])
  | c => [c]

/-- Canonical form of a call sequence under re-chunking of text. -/
def expand (cs : List Cmd) : List Cmd :=
  cs.flatMap expandCmd

/-- Feed `bytes` to the decoder in two chunks split at `k`, re-prepending
the unconsumed tail of the first chunk to the second, as
`Screen::process_input` does with `residual_input`; result: all sink calls
in order, and the final unconsumed tail. -/
def parseChunked (bytes : List Nat) (k : Nat) : List Cmd × List Nat :=
  let out1 := parse (bytes.take k)
  let out2 := parse (out1.2 ++ bytes.drop k)
  (out1.1 ++ out2.1, out2.2)

/-! ## Concrete states used by the claim theorems -/

/-- A cell holding a character with default colours and empty style. -/
def plainCell (c : Char) : GridCell :=
  ⟨c, DEFAULT_FOREGROUND, DEFAULT_BACKGROUND, 0⟩

/-- A blank 10x10 screen in the initial state. -/
def screen10 : Screen :=
  Screen.new 10 10

/-- A 1x2 screen whose current background is palette index 3 and whose
current style flags are BOLD. -/
def c4Screen : Screen :=
  { Screen.new 1 2 with background := .index 3, style := 1 }

/-- A 1x3 screen holding "abc" with the cursor at column 1. -/
def c5Screen : Screen :=
  { Screen.new 1 3 with
    grid := ⟨1, 3, [plainCell 'a', plainCell 'b', plainCell 'c']⟩
    cursor := ⟨0, 1⟩ }

/-- A 6x1 screen holding "abcdef" down its single column, with scrolling
region rows `[4, 6)`. -/
def c9Screen : Screen :=
  { Screen.new 6 1 with
    grid := ⟨6, 1, [plainCell 'a', plainCell 'b', plainCell 'c',
                    plainCell 'd', plainCell 'e', plainCell 'f']⟩
    scrollingRegion := (4, 6) }

/-- Append `e` to the unconsumed rest of a parts result (used to state
that `parse_control_sequence_parts` is insensitive to bytes after the
portion it consumes). -/
def PartsResult.extendBy (e : List Nat) : PartsResult → PartsResult
  | .ok ps it t rest => .ok ps it t (rest ++ e)
  | .incomplete => .incomplete
  | .invalid rest => .invalid (rest ++ e)

/-- Append `e` to the unconsumed rest of a control-sequence result. -/
def CtrlResult.extendBy (e : List Nat) : CtrlResult → CtrlResult
  | .ok c r => .ok c (r ++ e)
  | .incomplete => .incomplete
  | .invalid c r => .invalid c (r ++ e)

/-- A decided control-sequence result consumed at least one byte of `l`. -/
def CtrlResult.shrinks (x : CtrlResult) (l : List Nat) : Prop :=
  match x with
  | .ok _ r => r.length < l.length
  | .incomplete => True
  | .invalid _ r => r.length < l.length

/-! ## Pointwise characterization of the grid-mutating primitives -/

/-- Filling a cell range preserves the number of cells. -/
theorem fillCells_length (l : List GridCell) (a b : Nat) (c : GridCell) :
    (fillCells l a b c).length = l.length := by
  simp [fillCells]

/-- Cell `i` after `fillCells`: the new cell inside `[a, b)`, the old cell
outside. -/
theorem getD_fillCells (l : List GridCell) (a b : Nat) (c : GridCell) (i : Nat)
    (hi : i < l.length) :
    (fillCells l a b c).getD i GridCell.emptyCell =
      if a ≤ i ∧ i < b then c else l.getD i GridCell.emptyCell := by
  rw [fillCells, List.getD_eq_getElem?_getD, List.getElem?_map, List.getElem?_range hi]
  rfl

/-- The row-by-row fill preserves the number of cells. -/
theorem fillRowsGo_length (cols cs ce : Nat) (c : GridCell) :
    ∀ (rows : List Nat) (cells : List GridCell),
      (fillRowsGo cols cs ce c rows cells).length = cells.length := by
  intro rows
  induction rows with
  | nil => intro cells; rfl
  | cons row rows ih =>
    intro cells
    rw [fillRowsGo, ih, fillCells_length]

/-- Cell `i` after the row-by-row fill: the new cell whenever `i` lies in
the column window of one of the listed rows, the old cell otherwise. -/
theorem getD_fillRowsGo (cols cs ce : Nat) (c : GridCell) :
    ∀ (rows : List Nat) (cells : List GridCell) (i : Nat), i < cells.length →
      (fillRowsGo cols cs ce c rows cells).getD i GridCell.emptyCell =
        if ∃ row ∈ rows, row * cols + cs ≤ i ∧ i < row * cols + ce then c
        else cells.getD i GridCell.emptyCell := by
  intro rows
  induction rows with
  | nil => intro cells i hi; simp [fillRowsGo]
  | cons row rows ih =>
    intro cells i hi
    rw [fillRowsGo, ih _ _ (by rw [fillCells_length]; exact hi),
      getD_fillCells _ _ _ _ _ hi]
    by_cases hrows : ∃ r ∈ rows, r * cols + cs ≤ i ∧ i < r * cols + ce
    · rw [if_pos hrows, if_pos]
      obtain ⟨r, hr, hri⟩ := hrows
      exact ⟨r, List.mem_cons_of_mem _ hr, hri⟩
    · rw [if_neg hrows]
      by_cases hrow : row * cols + cs ≤ i ∧ i < row * cols + ce
      · rw [if_pos hrow, if_pos ⟨row, List.mem_cons_self .., hrow⟩]
      · rw [if_neg hrow, if_neg]
        rintro ⟨r, hr, hri⟩
        rcases List.mem_cons.mp hr with h | h
        · exact hrow (h ▸ hri)
        · exact hrows ⟨r, h, hri⟩

/-- `copyWithin` preserves the number of cells. -/
theorem copyWithin_length (l : List GridCell) (s e d : Nat) :
    (copyWithin l s e d).length = l.length := by
  simp [copyWithin]

/-- Cell `i` after `copyWithin`: read from the source window when `i` lies
in the destination window, unchanged otherwise. -/
theorem getD_copyWithin (l : List GridCell) (s e d i : Nat) (hi : i < l.length) :
    (copyWithin l s e d).getD i GridCell.emptyCell =
      if d ≤ i ∧ i < d + (e - s) then l.getD (s + i - d) GridCell.emptyCell
      else l.getD i GridCell.emptyCell := by
  rw [copyWithin, List.getD_eq_getElem?_getD, List.getElem?_map, List.getElem?_range hi]
  rfl

/-! ## Claim theorems: decoder colour handling (C2, C3) -/

/-- C2 (counterexample): feeding the decoder `ESC [ 38;5;196 m` does not
produce a `set_foreground_color` call with palette index 196 (nor any other
colour call): the whole sequence is reported as an invalid control sequence,
because the decoder under `src/` has no arm for SGR code 38. -/
theorem c2_counterexample :
    parse [0x1B, 0x5B, 0x33, 0x38, 0x3B, 0x35, 0x3B, 0x31, 0x39, 0x36, 0x6D] =
      ([.invalidControlSequence [0x1B, 0x5B, 0x33, 0x38, 0x3B, 0x35, 0x3B, 0x31, 0x39, 0x36, 0x6D]],
        [])
    ∧ Cmd.setForegroundColor (.index 196) ∉
        (parse [0x1B, 0x5B, 0x33, 0x38, 0x3B, 0x35, 0x3B, 0x31, 0x39, 0x36, 0x6D]).1 := by
  constructor
  · decide
  · decide

/-- C3 (code bug): SGR parameter 41 makes the decoder emit
`set_background_color` with palette index 11, not index 1: the `40..=47`
arm of `parse_character_attribute` subtracts 30 instead of 40.  The
neighbouring arms behave as the claim states (31 gives foreground index 1,
101 gives background index 1, 39/49 reset). -/
theorem c3_codebug :
    parse [0x1B, 0x5B, 0x34, 0x31, 0x6D] = ([.setBackgroundColor (.index 11)], [])
    ∧ parse [0x1B, 0x5B, 0x34, 0x37, 0x6D] = ([.setBackgroundColor (.index 17)], [])
    ∧ parse [0x1B, 0x5B, 0x33, 0x31, 0x6D] = ([.setForegroundColor (.index 1)], [])
    ∧ parse [0x1B, 0x5B, 0x39, 0x37, 0x6D] = ([.setForegroundColor (.index 7)], [])
    ∧ parse [0x1B, 0x5B, 0x31, 0x30, 0x31, 0x6D] = ([.setBackgroundColor (.index 1)], [])
    ∧ parse [0x1B, 0x5B, 0x33, 0x39, 0x6D] = ([.resetForegroundColor], [])
    ∧ parse [0x1B, 0x5B, 0x34, 0x39, 0x6D] = ([.resetBackgroundColor], []) := by
  refine ⟨by decide, by decide, by decide, by decide, by decide, by decide, by decide⟩

/-! ## Claim theorems: private-mode toggles (C6) -/

/-- C6 (counterexample): the private-mode sequence `ESC [ ? 25 h` does not
toggle show-cursor (or anything else): the decoder reports the whole
sequence as an invalid control sequence. -/
theorem c6_counterexample :
    parse [0x1B, 0x5B, 0x3F, 0x32, 0x35, 0x68] =
      ([.invalidControlSequence [0x1B, 0x5B, 0x3F, 0x32, 0x35, 0x68]], []) := by
  decide

/-- C6 (amended): the decoder recognizes exactly the private-mode codes 1
(application cursor) and 2004 (bracketed paste), via `h`/`l`; the codes 25,
47, 1047, 1048, 1049 are all rejected as invalid control sequences. -/
theorem c6_amended :
    parse [0x1B, 0x5B, 0x3F, 0x31, 0x68] = ([.setApplicationCursor .enable], [])
    ∧ parse [0x1B, 0x5B, 0x3F, 0x31, 0x6C] = ([.setApplicationCursor .disable], [])
    ∧ parse [0x1B, 0x5B, 0x3F, 0x32, 0x30, 0x30, 0x34, 0x68] = ([.setBracketedPaste .enable], [])
    ∧ parse [0x1B, 0x5B, 0x3F, 0x32, 0x30, 0x30, 0x34, 0x6C] = ([.setBracketedPaste .disable], [])
    ∧ parse [0x1B, 0x5B, 0x3F, 0x32, 0x35, 0x68] =
        ([.invalidControlSequence [0x1B, 0x5B, 0x3F, 0x32, 0x35, 0x68]], [])
    ∧ parse [0x1B, 0x5B, 0x3F, 0x32, 0x35, 0x6C] =
        ([.invalidControlSequence [0x1B, 0x5B, 0x3F, 0x32, 0x35, 0x6C]], [])
    ∧ parse [0x1B, 0x5B, 0x3F, 0x34, 0x37, 0x68] =
        ([.invalidControlSequence [0x1B, 0x5B, 0x3F, 0x34, 0x37, 0x68]], [])
    ∧ parse [0x1B, 0x5B, 0x3F, 0x31, 0x30, 0x34, 0x37, 0x68] =
        ([.invalidControlSequence [0x1B, 0x5B, 0x3F, 0x31, 0x30, 0x34, 0x37, 0x68]], [])
    ∧ parse [0x1B, 0x5B, 0x3F, 0x31, 0x30, 0x34, 0x38, 0x68] =
        ([.invalidControlSequence [0x1B, 0x5B, 0x3F, 0x31, 0x30, 0x34, 0x38, 0x68]], [])
    ∧ parse [0x1B, 0x5B, 0x3F, 0x31, 0x30, 0x34, 0x39, 0x68] =
        ([.invalidControlSequence [0x1B, 0x5B, 0x3F, 0x31, 0x30, 0x34, 0x39, 0x68]], [])
    ∧ parse [0x1B, 0x5B, 0x3F, 0x31, 0x30, 0x34, 0x39, 0x6C] =
        ([.invalidControlSequence [0x1B, 0x5B, 0x3F, 0x31, 0x30, 0x34, 0x39, 0x6C]], []) := by
  refine ⟨by decide, by decide, by decide, by decide, by decide, by decide, by decide,
    by decide, by decide, by decide, by decide⟩

/-! ## Claim theorems: truncated sequences (C8) and the `H` scenario (C7) -/

/-- C8: feeding `"\x1b[2"` emits zero commands and returns all three bytes
as the unconsumed tail; feeding the concatenation `"\x1b[2J"` emits exactly
one command, `clear_screen(All)`. -/
theorem c8_truncated_csi :
    parse [0x1B, 0x5B, 0x32] = ([], [0x1B, 0x5B, 0x32])
    ∧ parse [0x1B, 0x5B, 0x32, 0x4A] = ([.clearScreen .all], []) := by
  refine ⟨by decide, by decide⟩

/-- C7: on a blank 10x10 screen, `"A\x1b[2;5HB"` decodes to
`text "A"`, `set_cursor_pos(1, 4)`, `text "B"`; writing `'A'` puts it at
`(0, 0)` and advances the cursor to `(0, 1)`; `set_cursor_pos` clamps each
coordinate independently to the grid maxima; and the processed screen has
`'A'` at `(0, 0)` and `'B'` at `(1, 4)`. -/
theorem c7_cursor_scenario :
    parse [0x41, 0x1B, 0x5B, 0x32, 0x3B, 0x35, 0x48, 0x42] =
      ([.text ['A'], .setCursorPos 1 4, .text ['B']], [])
    ∧ (screen10.textOp ['A']).grid.cellAt 0 0 = ⟨'A', DEFAULT_FOREGROUND, DEFAULT_BACKGROUND, 0⟩
    ∧ (screen10.textOp ['A']).cursor = ⟨0, 1⟩
    ∧ (∀ row col : Nat,
        ((screen10.textOp ['A']).set_cursor_pos row col).cursor = ⟨min row 9, min col 9⟩)
    ∧ ((screen10.process_input [0x41, 0x1B, 0x5B, 0x32, 0x3B, 0x35, 0x48, 0x42]).map
        fun s => (s.grid.cellAt 0 0, s.grid.cellAt 1 4, s.cursor)) =
      some (⟨'A', DEFAULT_FOREGROUND, DEFAULT_BACKGROUND, 0⟩,
        ⟨'B', DEFAULT_FOREGROUND, DEFAULT_BACKGROUND, 0⟩, ⟨1, 5⟩) := by
  refine ⟨by decide, by decide, by decide, fun row col => rfl, by decide⟩

/-! ## Claim theorems: partial clears (C5) and scrolling (C9) -/

/-- C5 (code bug): on the 1x3 screen holding "abc" with the cursor at
column 1, `clear_line(ToStart)` also clears the cell at column 2, which is
strictly after the cursor: the fast path of `fill_region` fires because its
guard compares the column range's end (2) against `max_col()` (2) instead
of `cols()`, and it then fills the whole row. -/
theorem c5_codebug :
    (c5Screen.clear_line .toStart).grid.cellAt 0 2 ≠ c5Screen.grid.cellAt 0 2
    ∧ c5Screen.grid.cellAt 0 2 = plainCell 'c'
    ∧ (c5Screen.clear_line .toStart).grid.cellAt 0 2 = c5Screen.empty_cell := by
  refine ⟨by decide, by decide, by decide⟩

/-- C9 (code bug): on the 6x1 screen holding "abcdef" with scrolling region
rows `[4, 6)`, `scroll_down(1)` copies row 4 to the absolute row 1 (outside
the region) instead of to row 5, and clears nothing (its clear range is
`4..1`): row 1 is clobbered, row 4 is not cleared, and row 5 keeps its old
content instead of receiving row 4. -/
theorem c9_codebug :
    (c9Screen.scroll_down 1).grid.cells =
      [plainCell 'a', plainCell 'e', plainCell 'c', plainCell 'd', plainCell 'e', plainCell 'f']
    ∧ (c9Screen.scroll_down 1).grid.cellAt 1 0 ≠ c9Screen.grid.cellAt 1 0
    ∧ (c9Screen.scroll_down 1).grid.cellAt 5 0 ≠ c9Screen.grid.cellAt 4 0
    ∧ (c9Screen.scroll_down 1).grid.cellAt 4 0 ≠ c9Screen.empty_cell := by
  refine ⟨by decide, by decide, by decide, by decide⟩

/-! ## Claim theorem: alternate-buffer toggling (C10) -/

/-- C10: toggling the alternate buffer to the state it is already in leaves
the whole screen unchanged, and toggling twice with the same value equals
toggling once. -/
theorem c10_alternate_toggle_noop (s : Screen) (t : Toggle) :
    (t.isEnabled = s.behaviours.alternate_buffer →
      s.toggle_behaviour .alternateBuffer t = s)
    ∧ (s.toggle_behaviour .alternateBuffer t).toggle_behaviour .alternateBuffer t =
        s.toggle_behaviour .alternateBuffer t := by
  constructor
  · intro h
    simp [Screen.toggle_behaviour, h]
  · by_cases h : t.isEnabled = s.behaviours.alternate_buffer
    · simp [Screen.toggle_behaviour, h]
    · simp [Screen.toggle_behaviour, h]

/-- Witness for `c10_alternate_toggle_noop` at a concrete screen. -/
theorem c10_alternate_toggle_noop_witness :
    Toggle.isEnabled .disable = (Screen.new 2 2).behaviours.alternate_buffer
    ∧ (Screen.new 2 2).toggle_behaviour .alternateBuffer .disable = Screen.new 2 2 := by
  exact ⟨by decide, (c10_alternate_toggle_noop (Screen.new 2 2) .disable).1 (by decide)⟩

/-! ## Claim theorems: the blank cell used by clears (C4) -/

/-- C4 (counterexample): on a screen whose current background is palette
index 3 and whose current style is BOLD, `clear_screen(All)` fills cells
whose background is the global default (index 0), not the current
background, and whose style flags are the current style (BOLD), not empty:
`Screen::empty_cell` uses `DEFAULT_BACKGROUND` and `self.style`. -/
theorem c4_counterexample :
    ((c4Screen.clear_screen .all).grid.cellAt 0 0).background ≠ c4Screen.background
    ∧ ((c4Screen.clear_screen .all).grid.cellAt 0 0).background = DEFAULT_BACKGROUND
    ∧ ((c4Screen.clear_screen .all).grid.cellAt 0 0).style ≠ 0
    ∧ ((c4Screen.clear_screen .all).grid.cellAt 0 0).style = c4Screen.style := by
  refine ⟨by decide, by decide, by decide, by decide⟩


/-- A full-width row fill hits the cell `(i, j)` whenever row `i` is in the
filled row window. -/
theorem getD_fillRowsGo_full (cols : Nat) (cell : GridCell) (cells : List GridCell)
    (rstart rend i j : Nat) (hr1 : rstart ≤ i) (hr2 : i < rend) (hj : j < cols)
    (hlen : i * cols + j < cells.length) :
    (fillRowsGo cols 0 cols cell (List.range' rstart (rend - rstart)) cells).getD
      (i * cols + j) GridCell.emptyCell = cell := by
  rw [getD_fillRowsGo _ _ _ _ _ _ _ hlen, if_pos]
  refine ⟨i, List.mem_range'_1.mpr (by omega), ?_, ?_⟩
  · simp
  · exact Nat.add_lt_add_left hj _

/-- Clearing a row window of a region across all columns sets the cell
`(i, j)` to the screen's blank cell whenever `i` is in the window. -/
theorem clear_region_cellAt (s : Screen) (rsb reb : Bnd) (rstart rend i j : Nat)
    (hlen : s.grid.cells.length = s.grid.rows * s.grid.cols)
    (hcols : 1 ≤ s.grid.cols)
    (hi : i < s.grid.rows) (hj : j < s.grid.cols)
    (hr1 : rstart ≤ i) (hr2 : i < rend)
    (hb : intoExclusiveRange rsb reb s.grid.rows = (rstart, rend)) :
    (s.clear_region rsb reb .unb .unb).grid.cellAt i j = s.empty_cell := by
  have hmul : i * s.grid.cols + j < s.grid.rows * s.grid.cols := by
    calc i * s.grid.cols + j < i * s.grid.cols + s.grid.cols := by omega
    _ = (i + 1) * s.grid.cols := by ring
    _ ≤ s.grid.rows * s.grid.cols := Nat.mul_le_mul_right _ (by omega)
  rw [Screen.clear_region, CharacterGrid.fill_region, hb]
  have hcpair : intoExclusiveRange .unb .unb s.grid.cols = (0, s.grid.cols) := by
    simp [intoExclusiveRange]
  rw [hcpair]
  rw [if_neg (by simp [CharacterGrid.maxCol]; omega)]
  rw [CharacterGrid.cellAt]
  exact getD_fillRowsGo_full _ _ _ _ _ _ _ hr1 hr2 hj (by rw [hlen]; exact hmul)

/-- C4 (amended): clearing all of a region — `clear_screen(All)`,
`clear_line(All)`, and the rows exposed by `scroll_up` — fills every
cleared cell with a blank cell whose foreground and background are the
global default colours and whose style flags are the screen's current style
flags. -/
theorem c4_amended (s : Screen) (rs re n i j jl iu ju : Nat)
    (hlen : s.grid.cells.length = s.grid.rows * s.grid.cols)
    (hcols : 1 ≤ s.grid.cols)
    (hi : i < s.grid.rows) (hj : j < s.grid.cols)
    (hrow : s.cursor.row < s.grid.rows) (hjl : jl < s.grid.cols)
    (hreg : s.scrollingRegion = (rs, re)) (hn : rs + n ≤ re) (hre : re ≤ s.grid.rows)
    (hiu1 : re - n ≤ iu) (hiu2 : iu < re) (hju : ju < s.grid.cols) :
    s.empty_cell = ⟨' ', DEFAULT_FOREGROUND, DEFAULT_BACKGROUND, s.style⟩
    ∧ (s.clear_screen .all).grid.cellAt i j = s.empty_cell
    ∧ (s.clear_line .all).grid.cellAt s.cursor.row jl = s.empty_cell
    ∧ (s.scroll_up n).grid.cellAt iu ju = s.empty_cell := by
  refine ⟨rfl, ?_, ?_, ?_⟩
  · rw [Screen.clear_screen]
    exact clear_region_cellAt s .unb .unb 0 s.grid.rows i j hlen hcols hi hj (Nat.zero_le i) hi
      (by simp [intoExclusiveRange])
  · rw [Screen.clear_line, Screen.clear_current_line]
    exact clear_region_cellAt s _ _ s.cursor.row (s.cursor.row + 1) s.cursor.row jl hlen hcols
      hrow hjl (Nat.le_refl _) (Nat.lt_succ_self _)
      (by simp [intoExclusiveRange]; omega)
  · rw [Screen.scroll_up]
    rw [if_neg (by rw [hreg]; simp; omega)]
    rw [hreg]
    refine clear_region_cellAt _ _ _ (re - n) re iu ju ?_ hcols
      (show iu < s.grid.rows by omega) hju hiu1 hiu2 ?_
    · simpa [CharacterGrid.copy_rows, copyWithin_length] using hlen
    · simp [intoExclusiveRange, CharacterGrid.copy_rows]
      omega

/-- Witness for `c4_amended` on a concrete screen: a 2x2 screen with style
BOLD and background index 5, scrolling region `[0, 2)`, scrolling by 1. -/
theorem c4_amended_witness :
    ((c4Screen.grid.cells.length = c4Screen.grid.rows * c4Screen.grid.cols)
      ∧ 1 ≤ c4Screen.grid.cols
      ∧ (0 : Nat) < c4Screen.grid.rows ∧ (1 : Nat) < c4Screen.grid.cols
      ∧ c4Screen.cursor.row < c4Screen.grid.rows ∧ (0 : Nat) < c4Screen.grid.cols
      ∧ c4Screen.scrollingRegion = (0, 1) ∧ 0 + 1 ≤ 1 ∧ 1 ≤ c4Screen.grid.rows
      ∧ 1 - 1 ≤ (0 : Nat) ∧ (0 : Nat) < 1 ∧ (0 : Nat) < c4Screen.grid.cols)
    ∧ (c4Screen.empty_cell = ⟨' ', DEFAULT_FOREGROUND, DEFAULT_BACKGROUND, c4Screen.style⟩
      ∧ (c4Screen.clear_screen .all).grid.cellAt 0 1 = c4Screen.empty_cell
      ∧ (c4Screen.clear_line .all).grid.cellAt c4Screen.cursor.row 0 = c4Screen.empty_cell
      ∧ (c4Screen.scroll_up 1).grid.cellAt 0 0 = c4Screen.empty_cell) := by
  exact ⟨by decide,
    c4_amended c4Screen 0 1 1 0 1 0 0 0
      (by decide) (by decide) (by decide) (by decide) (by decide) (by decide) (by decide)
      (by decide) (by decide) (by decide) (by decide) (by decide)⟩

/-! ## Chunk-boundary invariance: expansion algebra -/

/-- Expansion distributes over concatenation of call sequences. -/
theorem expand_append (a b : List Cmd) : expand (a ++ b) = expand a ++ expand b := by
  simp [expand]

/-- Expanding one `text` call splits over concatenation of its characters. -/
theorem expand_text_append (s t : List Char) :
    expand [.text (s ++ t)] = expand [.text s] ++ expand [.text t] := by
  simp [expand, expandCmd]

/-! ## Chunk-boundary invariance: one-character decode lemmas -/

/-- A successful decode consumes between 1 and `l.length` bytes. -/
theorem utf8DecodeFirst_ok_bounds (l : List Nat) (c n : Nat)
    (h : utf8DecodeFirst l = .ok c n) : 1 ≤ n ∧ n ≤ l.length := by
  match l with
  | [] => simp [utf8DecodeFirst] at h
  | [b] =>
    simp only [utf8DecodeFirst] at h
    split_ifs at h <;> simp_all <;> omega
  | [b, b1] =>
    simp only [utf8DecodeFirst] at h
    split_ifs at h <;> simp_all <;> omega
  | [b, b1, b2] =>
    simp only [utf8DecodeFirst] at h
    split_ifs at h <;> simp_all <;> omega
  | b :: b1 :: b2 :: b3 :: rest =>
    simp only [utf8DecodeFirst] at h
    split_ifs at h <;> simp_all <;> omega

/-- An invalid decode rejects between 1 and `l.length` bytes. -/
theorem utf8DecodeFirst_invalid_bounds (l : List Nat) (n : Nat)
    (h : utf8DecodeFirst l = .invalid n) : 1 ≤ n ∧ n ≤ l.length := by
  match l with
  | [] => simp [utf8DecodeFirst] at h
  | [b] =>
    simp only [utf8DecodeFirst] at h
    split_ifs at h <;> simp_all <;> omega
  | [b, b1] =>
    simp only [utf8DecodeFirst] at h
    split_ifs at h <;> simp_all <;> omega
  | [b, b1, b2] =>
    simp only [utf8DecodeFirst] at h
    split_ifs at h <;> simp_all <;> omega
  | b :: b1 :: b2 :: b3 :: rest =>
    simp only [utf8DecodeFirst] at h
    split_ifs at h <;> simp_all <;> omega

/-- A successful decode is unaffected by appending more bytes. -/
theorem utf8DecodeFirst_ok_append (l e : List Nat) (c n : Nat)
    (h : utf8DecodeFirst l = .ok c n) : utf8DecodeFirst (l ++ e) = .ok c n := by
  match l with
  | [] => simp [utf8DecodeFirst] at h
  | [b] =>
    simp only [List.cons_append, List.nil_append, utf8DecodeFirst] at h ⊢
    split_ifs at h ⊢ <;> simp_all
  | [b, b1] =>
    simp only [List.cons_append, List.nil_append, utf8DecodeFirst] at h ⊢
    split_ifs at h ⊢ <;> simp_all
  | [b, b1, b2] =>
    simp only [List.cons_append, List.nil_append, utf8DecodeFirst] at h ⊢
    split_ifs at h ⊢ <;> simp_all
  | b :: b1 :: b2 :: b3 :: rest =>
    simp only [List.cons_append, List.nil_append, utf8DecodeFirst] at h ⊢
    split_ifs at h ⊢ <;> simp_all

/-- An invalid decode is unaffected by appending more bytes. -/
theorem utf8DecodeFirst_invalid_append (l e : List Nat) (n : Nat)
    (h : utf8DecodeFirst l = .invalid n) : utf8DecodeFirst (l ++ e) = .invalid n := by
  match l with
  | [] => simp [utf8DecodeFirst] at h
  | [b] =>
    simp only [List.cons_append, List.nil_append, utf8DecodeFirst] at h ⊢
    split_ifs at h ⊢ <;> simp_all
  | [b, b1] =>
    simp only [List.cons_append, List.nil_append, utf8DecodeFirst] at h ⊢
    split_ifs at h ⊢ <;> simp_all
  | [b, b1, b2] =>
    simp only [List.cons_append, List.nil_append, utf8DecodeFirst] at h ⊢
    split_ifs at h ⊢ <;> simp_all
  | b :: b1 :: b2 :: b3 :: rest =>
    simp only [List.cons_append, List.nil_append, utf8DecodeFirst] at h ⊢
    split_ifs at h ⊢ <;> simp_all

/-! ## Chunk-boundary invariance: decoding-run lemmas -/

/-- The run decoder on the empty list, for any fuel. -/
theorem utf8RunF_nil (f : Nat) : utf8RunF f [] = ([], [], .complete) := by
  cases f <;> rfl

/-- Any fuel of at least the length of the list gives the same run. -/
theorem utf8RunF_adequacy : ∀ (f : Nat) (g : Nat) (l : List Nat),
    l.length ≤ f → l.length ≤ g → utf8RunF f l = utf8RunF g l := by
  intro f
  induction f with
  | zero =>
    intro g l hf hg
    have : l = [] := List.eq_nil_of_length_eq_zero (by omega)
    subst this
    rw [utf8RunF_nil, utf8RunF_nil]
  | succ f ih =>
    intro g l hf hg
    match l with
    | [] => rw [utf8RunF_nil, utf8RunF_nil]
    | b :: rest =>
      match g with
      | 0 => simp at hg
      | g + 1 =>
        simp only [utf8RunF]
        cases hd : utf8DecodeFirst (b :: rest) with
        | ok c n =>
          dsimp only
          have hb := utf8DecodeFirst_ok_bounds _ _ _ hd
          have : ((b :: rest).drop n).length ≤ f := by
            simp at hf ⊢
            omega
          have hgl : ((b :: rest).drop n).length ≤ g := by
            simp at hg ⊢
            omega
          rw [ih g _ this hgl]
        | incomplete => rfl
        | invalid n => rfl

/-- Unfold `utf8Run` on a nonempty list whose first decode succeeds. -/
theorem ur_step_ok (b : Nat) (rest : List Nat) (c n : Nat)
    (hd : utf8DecodeFirst (b :: rest) = .ok c n) :
    utf8Run (b :: rest) =
      (Char.ofNat c :: (utf8Run ((b :: rest).drop n)).1,
        (utf8Run ((b :: rest).drop n)).2.1, (utf8Run ((b :: rest).drop n)).2.2) := by
  have hb := utf8DecodeFirst_ok_bounds _ _ _ hd
  show utf8RunF (b :: rest).length (b :: rest) = _
  rw [show (b :: rest).length = rest.length + 1 from by simp]
  simp only [utf8RunF]
  rw [hd]
  dsimp only
  have hq : utf8RunF rest.length ((b :: rest).drop n) = utf8Run ((b :: rest).drop n) := by
    apply utf8RunF_adequacy
    · simp at hb ⊢
      omega
    · exact Nat.le_refl _
  rw [hq]

/-- Unfold `utf8Run` when the first decode is truncated by the end of the
list. -/
theorem ur_step_incomplete (b : Nat) (rest : List Nat)
    (hd : utf8DecodeFirst (b :: rest) = .incomplete) :
    utf8Run (b :: rest) = ([], b :: rest, .incomplete) := by
  show utf8RunF (b :: rest).length (b :: rest) = _
  rw [show (b :: rest).length = rest.length + 1 from by simp]
  simp only [utf8RunF]
  rw [hd]

/-- Unfold `utf8Run` when the first decode is invalid. -/
theorem ur_step_invalid (b : Nat) (rest : List Nat) (n : Nat)
    (hd : utf8DecodeFirst (b :: rest) = .invalid n) :
    utf8Run (b :: rest) = ([], b :: rest, .invalid n) := by
  show utf8RunF (b :: rest).length (b :: rest) = _
  rw [show (b :: rest).length = rest.length + 1 from by simp]
  simp only [utf8RunF]
  rw [hd]

/-- The stopping point of a run is a suffix of the input. -/
theorem ur_rest_suffix : ∀ (N : Nat) (l : List Nat), l.length ≤ N →
    ∃ m, m ≤ l.length ∧ (utf8Run l).2.1 = l.drop m := by
  intro N
  induction N with
  | zero =>
    intro l hl
    have : l = [] := List.eq_nil_of_length_eq_zero (by omega)
    subst this
    exact ⟨0, by simp [utf8Run, utf8RunF_nil]⟩
  | succ N ih =>
    intro l hl
    match l with
    | [] => exact ⟨0, by simp [utf8Run, utf8RunF_nil]⟩
    | b :: rest =>
      cases hd : utf8DecodeFirst (b :: rest) with
      | ok c n =>
        have hb := utf8DecodeFirst_ok_bounds _ _ _ hd
        rw [ur_step_ok _ _ _ _ hd]
        obtain ⟨m, hm, hr⟩ := ih ((b :: rest).drop n) (by simp at hl ⊢; omega)
        refine ⟨n + m, ?_, ?_⟩
        · simp at hb hm ⊢
          omega
        · simpa [List.drop_drop, Nat.add_comm] using hr
      | incomplete =>
        rw [ur_step_incomplete _ _ hd]
        exact ⟨0, by simp⟩
      | invalid n =>
        rw [ur_step_invalid _ _ _ hd]
        exact ⟨0, by simp⟩

/-- Facts about a run that stops at an invalid subpart: the subpart length
is at least 1 and fits in the stopping suffix. -/
theorem ur_invalid_bounds : ∀ (N : Nat) (l : List Nat), l.length ≤ N → ∀ k,
    (utf8Run l).2.2 = .invalid k → 1 ≤ k ∧ k ≤ (utf8Run l).2.1.length := by
  intro N
  induction N with
  | zero =>
    intro l hl k hk
    have : l = [] := List.eq_nil_of_length_eq_zero (by omega)
    subst this
    simp [utf8Run, utf8RunF_nil] at hk
  | succ N ih =>
    intro l hl k hk
    match l with
    | [] => simp [utf8Run, utf8RunF_nil] at hk
    | b :: rest =>
      cases hd : utf8DecodeFirst (b :: rest) with
      | ok c n =>
        have hb := utf8DecodeFirst_ok_bounds _ _ _ hd
        rw [ur_step_ok _ _ _ _ hd] at hk ⊢
        exact ih ((b :: rest).drop n) (by simp at hl ⊢; omega) k hk
      | incomplete =>
        rw [ur_step_incomplete _ _ hd] at hk
        simp at hk
      | invalid n =>
        rw [ur_step_invalid _ _ _ hd] at hk ⊢
        simp at hk
        subst hk
        exact utf8DecodeFirst_invalid_bounds _ _ hd

/-- Appending bytes to a run that stops at an invalid subpart keeps the
decoded characters and the invalid subpart, and extends the stopping
suffix. -/
theorem ur_ext_invalid : ∀ (N : Nat) (l : List Nat), l.length ≤ N → ∀ (B : List Nat) (k : Nat),
    (utf8Run l).2.2 = .invalid k →
    utf8Run (l ++ B) = ((utf8Run l).1, (utf8Run l).2.1 ++ B, .invalid k) := by
  intro N
  induction N with
  | zero =>
    intro l hl B k hk
    have : l = [] := List.eq_nil_of_length_eq_zero (by omega)
    subst this
    simp [utf8Run, utf8RunF_nil] at hk
  | succ N ih =>
    intro l hl B k hk
    match l with
    | [] => simp [utf8Run, utf8RunF_nil] at hk
    | b :: rest =>
      cases hd : utf8DecodeFirst (b :: rest) with
      | ok c n =>
        have hb := utf8DecodeFirst_ok_bounds _ _ _ hd
        rw [ur_step_ok _ _ _ _ hd] at hk ⊢
        simp only at hk
        have hdrop : (b :: rest ++ B).drop n = (b :: rest).drop n ++ B := by
          rw [List.drop_append_of_le_length]
          simpa using hb.2
        rw [List.cons_append, ur_step_ok _ _ _ _ (by
          have := utf8DecodeFirst_ok_append (b :: rest) B c n hd
          simpa using this)]
        rw [show b :: (rest ++ B) = b :: rest ++ B from rfl, hdrop]
        rw [ih ((b :: rest).drop n) (by simp at hl ⊢; omega) B k hk]
      | incomplete =>
        rw [ur_step_incomplete _ _ hd] at hk
        simp at hk
      | invalid n =>
        rw [ur_step_invalid _ _ _ hd] at hk ⊢
        simp at hk
        rw [List.cons_append, ur_step_invalid _ _ _ (by
          simpa using utf8DecodeFirst_invalid_append (b :: rest) B n hd)]
        simp [hk]

/-- Appending bytes to a run that ends cleanly or at a truncated character:
the extended run decodes the old characters and then continues from the
stopping suffix with the new bytes. -/
theorem ur_ext_cont : ∀ (N : Nat) (l : List Nat), l.length ≤ N → ∀ (B : List Nat),
    ((utf8Run l).2.2 = .complete ∨ (utf8Run l).2.2 = .incomplete) →
    utf8Run (l ++ B) =
      ((utf8Run l).1 ++ (utf8Run ((utf8Run l).2.1 ++ B)).1,
        (utf8Run ((utf8Run l).2.1 ++ B)).2.1,
        (utf8Run ((utf8Run l).2.1 ++ B)).2.2) := by
  intro N
  induction N with
  | zero =>
    intro l hl B _
    have : l = [] := List.eq_nil_of_length_eq_zero (by omega)
    subst this
    simp [utf8Run, utf8RunF_nil]
  | succ N ih =>
    intro l hl B hend
    match l with
    | [] => simp [utf8Run, utf8RunF_nil]
    | b :: rest =>
      cases hd : utf8DecodeFirst (b :: rest) with
      | ok c n =>
        have hb := utf8DecodeFirst_ok_bounds _ _ _ hd
        rw [ur_step_ok _ _ _ _ hd] at hend ⊢
        simp only at hend
        have hdrop : (b :: rest ++ B).drop n = (b :: rest).drop n ++ B := by
          rw [List.drop_append_of_le_length]
          simpa using hb.2
        rw [List.cons_append, ur_step_ok _ _ _ _ (by
          have := utf8DecodeFirst_ok_append (b :: rest) B c n hd
          simpa using this)]
        rw [show b :: (rest ++ B) = b :: rest ++ B from rfl, hdrop]
        rw [ih ((b :: rest).drop n) (by simp at hl ⊢; omega) B hend]
        simp
      | incomplete =>
        rw [ur_step_incomplete _ _ hd]
        simp
      | invalid n =>
        rw [ur_step_invalid _ _ _ hd] at hend
        simp at hend

/-! ## Chunk-boundary invariance: `emit_text` lemmas -/

/-- A run that ends cleanly has consumed all its input. -/
theorem ur_complete_rest : ∀ (N : Nat) (l : List Nat), l.length ≤ N →
    (utf8Run l).2.2 = .complete → (utf8Run l).2.1 = [] := by
  intro N
  induction N with
  | zero =>
    intro l hl _
    have : l = [] := List.eq_nil_of_length_eq_zero (by omega)
    subst this
    simp [utf8Run, utf8RunF_nil]
  | succ N ih =>
    intro l hl he
    match l with
    | [] => simp [utf8Run, utf8RunF_nil]
    | b :: rest =>
      cases hd : utf8DecodeFirst (b :: rest) with
      | ok c n =>
        have hb := utf8DecodeFirst_ok_bounds _ _ _ hd
        rw [ur_step_ok _ _ _ _ hd] at he ⊢
        exact ih ((b :: rest).drop n) (by simp at hl ⊢; omega) he
      | incomplete => rw [ur_step_incomplete _ _ hd] at he; simp at he
      | invalid n => rw [ur_step_invalid _ _ _ hd] at he; simp at he

/-- The model of `emit_text` on the empty slice, for any fuel. -/
theorem emitTextF_nil (f : Nat) : emitTextF f [] = ([], []) := by
  cases f <;> rfl

/-- Any fuel of at least the length of the slice gives the same
`emit_text`. -/
theorem emitTextF_adequacy : ∀ (f : Nat) (g : Nat) (l : List Nat),
    l.length ≤ f → l.length ≤ g → emitTextF f l = emitTextF g l := by
  intro f
  induction f with
  | zero =>
    intro g l hf hg
    have : l = [] := List.eq_nil_of_length_eq_zero (by omega)
    subst this
    rw [emitTextF_nil, emitTextF_nil]
  | succ f ih =>
    intro g l hf hg
    match l with
    | [] => rw [emitTextF_nil, emitTextF_nil]
    | b :: rest =>
      match g with
      | 0 => simp at hg
      | g + 1 =>
        simp only [emitTextF]
        rcases hu : utf8Run (b :: rest) with ⟨cs, r, e⟩
        obtain ⟨m, hm, hr⟩ := ur_rest_suffix (b :: rest).length (b :: rest) (Nat.le_refl _)
        rw [hu] at hr
        simp only at hr
        cases e with
        | complete => rfl
        | incomplete => rfl
        | invalid k =>
          have hk := ur_invalid_bounds (b :: rest).length (b :: rest) (Nat.le_refl _) k
            (by rw [hu])
          rw [hu] at hk
          simp only at hk
          have hrl : r.length ≤ (b :: rest).length := by
            rw [hr]
            simp
          have h1 : (r.drop k).length ≤ f := by
            simp at hf hrl ⊢
            omega
          have h2 : (r.drop k).length ≤ g := by
            simp at hg hrl ⊢
            omega
          dsimp only
          rw [ih g _ h1 h2]

/-- Unfold `emit_text` when the decoding run of the input ends cleanly. -/
theorem et_step_complete (l : List Nat) (cs : List Char) (r : List Nat)
    (hne : l ≠ []) (hu : utf8Run l = (cs, r, .complete)) :
    emit_text l = ([.text cs], []) := by
  match l with
  | [] => exact absurd rfl hne
  | b :: rest =>
    show emitTextF (b :: rest).length (b :: rest) = _
    rw [show (b :: rest).length = rest.length + 1 from by simp]
    simp only [emitTextF]
    rw [hu]

/-- Unfold `emit_text` when the decoding run ends at a truncated final
character: the truncated bytes become the residue. -/
theorem et_step_incomplete (l : List Nat) (cs : List Char) (r : List Nat)
    (hne : l ≠ []) (hu : utf8Run l = (cs, r, .incomplete)) :
    emit_text l = ([.text cs], r) := by
  match l with
  | [] => exact absurd rfl hne
  | b :: rest =>
    show emitTextF (b :: rest).length (b :: rest) = _
    rw [show (b :: rest).length = rest.length + 1 from by simp]
    simp only [emitTextF]
    rw [hu]

/-- Unfold `emit_text` when the decoding run stops at an invalid subpart:
flush the text, report the subpart, continue after it. -/
theorem et_step_invalid (l : List Nat) (cs : List Char) (r : List Nat) (k : Nat)
    (hne : l ≠ []) (hu : utf8Run l = (cs, r, .invalid k)) :
    emit_text l =
      (.text cs :: .invalidUtf8 (r.take k) :: (emit_text (r.drop k)).1,
        (emit_text (r.drop k)).2) := by
  match l with
  | [] => exact absurd rfl hne
  | b :: rest =>
    obtain ⟨m, hm, hr⟩ := ur_rest_suffix (b :: rest).length (b :: rest) (Nat.le_refl _)
    rw [hu] at hr
    simp only at hr
    have hk := ur_invalid_bounds (b :: rest).length (b :: rest) (Nat.le_refl _) k (by rw [hu])
    rw [hu] at hk
    simp only at hk
    have hrl : r.length ≤ (b :: rest).length := by
      rw [hr]
      simp
    show emitTextF (b :: rest).length (b :: rest) = _
    rw [show (b :: rest).length = rest.length + 1 from by simp]
    simp only [emitTextF]
    rw [hu]
    dsimp only
    have : emitTextF rest.length (r.drop k) = emit_text (r.drop k) := by
      apply emitTextF_adequacy
      · simp at hrl ⊢
        omega
      · exact Nat.le_refl _
    rw [this]

/-- The residue of `emit_text` is a suffix of its input. -/
theorem et_res_suffix : ∀ (N : Nat) (l : List Nat), l.length ≤ N →
    ∃ m, m ≤ l.length ∧ (emit_text l).2 = l.drop m := by
  intro N
  induction N with
  | zero =>
    intro l hl
    have : l = [] := List.eq_nil_of_length_eq_zero (by omega)
    subst this
    exact ⟨0, by simp [emit_text, emitTextF_nil]⟩
  | succ N ih =>
    intro l hl
    match l with
    | [] => exact ⟨0, by simp [emit_text, emitTextF_nil]⟩
    | b :: rest =>
      rcases hu : utf8Run (b :: rest) with ⟨cs, r, e⟩
      obtain ⟨m, hm, hr⟩ := ur_rest_suffix (b :: rest).length (b :: rest) (Nat.le_refl _)
      rw [hu] at hr
      simp only at hr
      cases e with
      | complete =>
        rw [et_step_complete _ _ _ (by simp) hu]
        exact ⟨(b :: rest).length, by simp⟩
      | incomplete =>
        rw [et_step_incomplete _ _ _ (by simp) hu]
        exact ⟨m, hm, by simp [hr]⟩
      | invalid k =>
        rw [et_step_invalid _ _ _ _ (by simp) hu]
        have hk := ur_invalid_bounds (b :: rest).length (b :: rest) (Nat.le_refl _) k
          (by rw [hu])
        rw [hu] at hk
        simp only at hk
        have hrl : r.length ≤ (b :: rest).length := by
          rw [hr]
          simp
        obtain ⟨m2, hm2, hres⟩ := ih (r.drop k) (by simp at hl hrl ⊢; omega)
        refine ⟨m + (k + m2), ?_, ?_⟩
        · have hrlen : r.length = (b :: rest).length - m := by
            rw [hr]
            simp
          simp only [List.length_drop] at hm2
          omega
        · simp only
          rw [hres, hr]
          rw [List.drop_drop, List.drop_drop]

/-- Expansion of a cons. -/
theorem expand_cons (c : Cmd) (t : List Cmd) : expand (c :: t) = expandCmd c ++ expand t := by
  simp [expand]

/-- If the taken prefix is empty the dropped suffix is the whole list. -/
theorem take_nil_drop (l : List Nat) (k : Nat) (h : l.take k = []) : l.drop k = l := by
  cases l <;> cases k <;> simp_all

/-- Chunk composition for `emit_text`: cutting a byte list anywhere,
emitting the first part, and re-emitting its residue prepended to the
second part gives the same calls as emitting the whole list, up to
re-chunking of text, and the same final residue. -/
theorem et_chunk : ∀ (N : Nat) (l : List Nat) (k : Nat), l.length ≤ N →
    expand ((emit_text (l.take k)).1 ++ (emit_text ((emit_text (l.take k)).2 ++ l.drop k)).1)
      = expand ((emit_text l).1)
    ∧ (emit_text ((emit_text (l.take k)).2 ++ l.drop k)).2 = (emit_text l).2 := by
  intro N
  induction N with
  | zero =>
    intro l k hl
    have : l = [] := List.eq_nil_of_length_eq_zero (by omega)
    subst this
    simp [emit_text, emitTextF_nil]
  | succ N ih =>
    intro l k hl
    by_cases hA : l.take k = []
    · rw [hA, take_nil_drop l k hA]
      simp [emit_text, emitTextF_nil]
    · have hlne : l ≠ [] := by
        intro h
        rw [h] at hA
        simp at hA
      have hAB : l.take k ++ l.drop k = l := List.take_append_drop k l
      have hlenA : (l.take k).length + (l.drop k).length = l.length := by
        rw [← List.length_append, hAB]
      rcases hu : utf8Run (l.take k) with ⟨csA, restA, eA⟩
      cases eA with
      | complete =>
        have hrest : restA = [] := by
          have h2 := ur_complete_rest (l.take k).length (l.take k) (Nat.le_refl _) (by rw [hu])
          rw [hu] at h2
          exact h2
        have hc1 : emit_text (l.take k) = ([.text csA], []) := et_step_complete _ _ _ hA hu
        have hext := ur_ext_cont (l.take k).length (l.take k) (Nat.le_refl _) (l.drop k)
          (by rw [hu]; exact Or.inl rfl)
        rw [hu, hrest] at hext
        simp only [List.nil_append] at hext
        rw [hAB] at hext
        rw [hc1]
        simp only [List.nil_append]
        by_cases hBnil : l.drop k = []
        · have hlk : l.length ≤ k := List.drop_eq_nil_iff_le.mp hBnil
          have hlA : l.take k = l := List.take_of_length_le hlk
          have hel : emit_text l = ([.text csA], []) := by
            rw [← hc1, hlA]
          rw [hBnil]
          rw [show emit_text [] = ([], []) from rfl, hel]
          constructor
          · simp
          · rfl
        · rcases hx : utf8Run (l.drop k) with ⟨csX, rX, eX⟩
          rw [hx] at hext
          simp only at hext
          cases eX with
          | complete =>
            rw [et_step_complete _ _ _ hBnil hx, et_step_complete _ _ _ hlne hext]
            constructor
            · simp [expand, expandCmd]
            · rfl
          | incomplete =>
            rw [et_step_incomplete _ _ _ hBnil hx, et_step_incomplete _ _ _ hlne hext]
            constructor
            · simp [expand, expandCmd]
            · rfl
          | invalid kx =>
            rw [et_step_invalid _ _ _ _ hBnil hx, et_step_invalid _ _ _ _ hlne hext]
            constructor
            · simp [expand, expandCmd, List.append_assoc]
            · rfl
      | incomplete =>
        have hc1 : emit_text (l.take k) = ([.text csA], restA) := et_step_incomplete _ _ _ hA hu
        have hext := ur_ext_cont (l.take k).length (l.take k) (Nat.le_refl _) (l.drop k)
          (by rw [hu]; exact Or.inr rfl)
        rw [hu] at hext
        simp only at hext
        rw [hAB] at hext
        rw [hc1]
        simp only
        by_cases hRB : restA ++ l.drop k = []
        · rw [hRB] at hext ⊢
          rw [show utf8Run [] = ([], [], .complete) from rfl] at hext
          simp only at hext
          rw [show emit_text [] = ([], []) from rfl]
          rw [et_step_complete l (csA ++ []) [] hlne (by simpa using hext)]
          constructor
          · simp
          · rfl
        · rcases hx : utf8Run (restA ++ l.drop k) with ⟨csX, rX, eX⟩
          rw [hx] at hext
          simp only at hext
          cases eX with
          | complete =>
            rw [et_step_complete _ _ _ hRB hx, et_step_complete _ _ _ hlne hext]
            constructor
            · simp [expand, expandCmd]
            · rfl
          | incomplete =>
            rw [et_step_incomplete _ _ _ hRB hx, et_step_incomplete _ _ _ hlne hext]
            constructor
            · simp [expand, expandCmd]
            · rfl
          | invalid kx =>
            rw [et_step_invalid _ _ _ _ hRB hx, et_step_invalid _ _ _ _ hlne hext]
            constructor
            · simp [expand, expandCmd, List.append_assoc]
            · rfl
      | invalid kA =>
        have hbounds := ur_invalid_bounds (l.take k).length (l.take k) (Nat.le_refl _) kA
          (by rw [hu])
        rw [hu] at hbounds
        simp only at hbounds
        obtain ⟨m, hm, hrA⟩ := ur_rest_suffix (l.take k).length (l.take k) (Nat.le_refl _)
        rw [hu] at hrA
        simp only at hrA
        have hc1 := et_step_invalid _ _ _ _ hA hu
        have hext := ur_ext_invalid (l.take k).length (l.take k) (Nat.le_refl _) (l.drop k) kA
          (by rw [hu])
        rw [hu] at hext
        simp only at hext
        rw [hAB] at hext
        have hel := et_step_invalid l csA (restA ++ l.drop k) kA hlne hext
        have htake : (restA ++ l.drop k).take kA = restA.take kA :=
          List.take_append_of_le_length hbounds.2
        have hdrop : (restA ++ l.drop k).drop kA = restA.drop kA ++ l.drop k :=
          List.drop_append_of_le_length hbounds.2
        rw [htake, hdrop] at hel
        have hlen2 : (restA.drop kA ++ l.drop k).length ≤ N := by
          have h1 : restA.length = (l.take k).length - m := by
            rw [hrA]
            simp
          have htl : (l.take k).length = min k l.length := List.length_take k l
          have hdl : (l.drop k).length = l.length - k := List.length_drop k l
          simp only [List.length_append, List.length_drop]
          omega
        have hIH := ih (restA.drop kA ++ l.drop k) (restA.drop kA).length hlen2
        rw [List.take_left, List.drop_left] at hIH
        rw [hc1, hel]
        simp only
        constructor
        · simp only [List.cons_append, expand_cons]
          rw [hIH.1]
        · exact hIH.2

/-! ## Chunk-boundary invariance: the control-sequence parsers look only at
the bytes they consume -/

/-- `take_while` is insensitive to bytes after the point where it stops. -/
theorem twi_ext (p : Nat → Bool) : ∀ (l e a b : List Nat),
    takeWhileInc p l = some (a, b) → takeWhileInc p (l ++ e) = some (a, b ++ e) := by
  intro l
  induction l with
  | nil => intro e a b h; simp [takeWhileInc] at h
  | cons x xs ih =>
    intro e a b h
    rw [takeWhileInc] at h
    rw [List.cons_append, takeWhileInc]
    by_cases hp : p x
    · rw [if_pos hp] at h ⊢
      cases hx : takeWhileInc p xs with
      | none => rw [hx] at h; simp at h
      | some q =>
        rw [hx] at h
        simp at h
        rw [ih e q.1 q.2 (by rw [hx])]
        simp [← h.1, ← h.2]
    · rw [if_neg hp] at h ⊢
      simp at h
      simp [← h.1, ← h.2]

/-- `take_while` splits its input into the matching prefix and the rest. -/
theorem twi_parts (p : Nat → Bool) : ∀ (l a b : List Nat),
    takeWhileInc p l = some (a, b) → l = a ++ b := by
  intro l
  induction l with
  | nil => intro a b h; simp [takeWhileInc] at h
  | cons x xs ih =>
    intro a b h
    rw [takeWhileInc] at h
    by_cases hp : p x
    · rw [if_pos hp] at h
      cases hx : takeWhileInc p xs with
      | none => rw [hx] at h; simp at h
      | some q =>
        obtain ⟨a2, b2⟩ := q
        rw [hx] at h
        simp at h
        obtain ⟨ha, hb⟩ := h
        subst ha
        subst hb
        rw [List.cons_append, ← ih a2 b2 hx]
    · rw [if_neg hp] at h
      simp at h
      obtain ⟨ha, hb⟩ := h
      subst ha
      simp [← hb]

/-- `parse_control_sequence_parts` is insensitive to bytes after the
terminator. -/
theorem parts_ext (l e : List Nat) (h : parse_control_sequence_parts l ≠ .incomplete) :
    parse_control_sequence_parts (l ++ e) = (parse_control_sequence_parts l).extendBy e := by
  rw [parse_control_sequence_parts] at h ⊢
  rw [parse_control_sequence_parts]
  cases h1 : takeWhileInc (fun b => 0x30 ≤ b && b ≤ 0x3F) l with
  | none => rw [h1] at h; simp at h
  | some q1 =>
    obtain ⟨ps, l1⟩ := q1
    rw [h1] at h
    rw [twi_ext _ _ _ _ _ h1]
    dsimp only at h ⊢
    cases h2 : takeWhileInc (fun b => 0x20 ≤ b && b ≤ 0x2F) l1 with
    | none => rw [h2] at h; simp at h
    | some q2 =>
      obtain ⟨it, l2⟩ := q2
      rw [h2] at h
      rw [twi_ext _ _ _ _ _ h2]
      dsimp only at h ⊢
      cases l2 with
      | nil => simp at h
      | cons t l3 =>
        rw [List.cons_append]
        dsimp only
        by_cases ht : (0x40 ≤ t && t ≤ 0x7E) = true
        · rw [if_pos ht, if_pos ht]
          rfl
        · rw [if_neg ht, if_neg ht]
          rfl

/-- The rest returned by `parse_control_sequence_parts` is shorter than the
input (a decision consumes at least the terminator byte). -/
theorem parts_shrinks (l : List Nat) :
    (∀ ps it t rest, parse_control_sequence_parts l = .ok ps it t rest →
      rest.length < l.length)
    ∧ (∀ rest, parse_control_sequence_parts l = .invalid rest → rest.length < l.length) := by
  rw [parse_control_sequence_parts]
  cases h1 : takeWhileInc (fun b => 0x30 ≤ b && b ≤ 0x3F) l with
  | none => simp
  | some q1 =>
    obtain ⟨ps1, l1⟩ := q1
    have hp1 := twi_parts _ _ _ _ h1
    dsimp only
    cases h2 : takeWhileInc (fun b => 0x20 ≤ b && b ≤ 0x2F) l1 with
    | none => simp
    | some q2 =>
      obtain ⟨it1, l2⟩ := q2
      have hp2 := twi_parts _ _ _ _ h2
      dsimp only
      cases l2 with
      | nil => simp
      | cons t l3 =>
        dsimp only
        have hlen : l3.length < l.length := by
          rw [hp1, hp2]
          simp
          omega
        by_cases ht : (0x40 ≤ t && t ≤ 0x7E) = true
        · rw [if_pos ht]
          constructor
          · intro ps it t2 rest hok
            cases hok
            exact hlen
          · intro rest hbad
            cases hbad
        · rw [if_neg ht]
          constructor
          · intro ps it t2 rest hok
            cases hok
          · intro rest hbad
            cases hbad
            exact hlen

/-- `mkCtrl` extends its rest pointwise. -/
theorem mkCtrl_ext (out : List Cmd × Bool) (rest e : List Nat) :
    mkCtrl out (rest ++ e) = (mkCtrl out rest).extendBy e := by
  by_cases h : out.2 <;> simp [mkCtrl, h, CtrlResult.extendBy]

/-- `mkCtrl` keeps the rest it is given. -/
theorem mkCtrl_shrinks (out : List Cmd × Bool) (rest : List Nat) (l : List Nat)
    (h : rest.length < l.length) : (mkCtrl out rest).shrinks l := by
  by_cases h2 : out.2 <;> simp [mkCtrl, h2, CtrlResult.shrinks, h]

/-- The CSI parser is insensitive to bytes after the sequence it consumes. -/
theorem pecs_ext (l e : List Nat) (h : parse_escape_control_sequence l ≠ .incomplete) :
    parse_escape_control_sequence (l ++ e) =
      (parse_escape_control_sequence l).extendBy e := by
  rw [parse_escape_control_sequence] at h ⊢
  rw [parse_escape_control_sequence]
  cases hp : parse_control_sequence_parts l with
  | incomplete => rw [hp] at h; simp at h
  | invalid rest =>
    rw [parts_ext l e (by rw [hp]; simp), hp]
    rfl
  | ok ps it t rest =>
    rw [parts_ext l e (by rw [hp]; simp), hp]
    dsimp only [PartsResult.extendBy]
    by_cases hit : it.isEmpty
    · rw [if_pos hit, if_pos hit]
      by_cases hq : ps.head? = some 0x3F
      · rw [if_pos hq, if_pos hq, mkCtrl_ext]
      · rw [if_neg hq, if_neg hq, mkCtrl_ext]
    · rw [if_neg hit, if_neg hit]
      rfl

/-- The CSI parser consumes at least one byte on a decision. -/
theorem pecs_shrinks (l : List Nat) : (parse_escape_control_sequence l).shrinks l := by
  rw [parse_escape_control_sequence]
  cases hp : parse_control_sequence_parts l with
  | incomplete => simp [CtrlResult.shrinks]
  | invalid rest =>
    have := (parts_shrinks l).2 rest hp
    simp [CtrlResult.shrinks, this]
  | ok ps it t rest =>
    have hr := (parts_shrinks l).1 ps it t rest hp
    dsimp only
    by_cases hit : it.isEmpty
    · rw [if_pos hit]
      by_cases hq : ps.head? = some 0x3F
      · rw [if_pos hq]
        exact mkCtrl_shrinks _ _ _ hr
      · rw [if_neg hq]
        exact mkCtrl_shrinks _ _ _ hr
    · rw [if_neg hit]
      simp [CtrlResult.shrinks, hr]

/-- The OSC parser is insensitive to bytes after the sequence it consumes. -/
theorem posc_ext (l e : List Nat) (h : parse_operating_system_command l ≠ .incomplete) :
    parse_operating_system_command (l ++ e) =
      (parse_operating_system_command l).extendBy e := by
  rw [parse_operating_system_command] at h ⊢
  rw [parse_operating_system_command]
  cases h1 : takeWhileInc (fun b => 0x30 ≤ b && b ≤ 0x39) l with
  | none => rw [h1] at h; simp at h
  | some q1 =>
    obtain ⟨numbers, l1⟩ := q1
    rw [h1] at h
    rw [twi_ext _ _ _ _ _ h1]
    dsimp only at h ⊢
    cases h2 : takeWhileInc (fun b => 0x20 ≤ b && b ≤ 0x7E) l1 with
    | none => rw [h2] at h; simp at h
    | some q2 =>
      obtain ⟨params, l2⟩ := q2
      rw [h2] at h
      rw [twi_ext _ _ _ _ _ h2]
      dsimp only at h ⊢
      cases l2 with
      | nil => simp at h
      | cons t l3 =>
        rw [List.cons_append]
        dsimp only
        by_cases ht : t = 0x07
        · rw [if_pos ht, if_pos ht]
          by_cases hsemi : params.head? = some 0x3B
          · rw [if_pos hsemi, if_pos hsemi]
            by_cases hqm : params.tail = [0x3F]
            · rw [if_pos hqm, if_pos hqm]
              rfl
            · rw [if_neg hqm, if_neg hqm]
              cases ha : argSingle numbers with
              | none => rfl
              | some v =>
                dsimp only
                by_cases h0 : withDefault 0 v = 0
                · rw [if_pos h0, if_pos h0]; rfl
                · rw [if_neg h0, if_neg h0]
                  by_cases hv1 : withDefault 0 v = 1
                  · rw [if_pos hv1, if_pos hv1]; rfl
                  · rw [if_neg hv1, if_neg hv1]
                    by_cases hv2 : withDefault 0 v = 2
                    · rw [if_pos hv2, if_pos hv2]; rfl
                    · rw [if_neg hv2, if_neg hv2]
                      by_cases hv3 : withDefault 0 v = 3
                      · rw [if_pos hv3, if_pos hv3]; rfl
                      · rw [if_neg hv3, if_neg hv3]; rfl
          · rw [if_neg hsemi, if_neg hsemi]
            rfl
        · rw [if_neg ht, if_neg ht]
          rfl

/-- The OSC parser consumes at least one byte on a decision. -/
theorem posc_shrinks (l : List Nat) : (parse_operating_system_command l).shrinks l := by
  rw [parse_operating_system_command]
  cases h1 : takeWhileInc (fun b => 0x30 ≤ b && b ≤ 0x39) l with
  | none => simp [CtrlResult.shrinks]
  | some q1 =>
    obtain ⟨numbers, l1⟩ := q1
    have hp1 := twi_parts _ _ _ _ h1
    dsimp only
    cases h2 : takeWhileInc (fun b => 0x20 ≤ b && b ≤ 0x7E) l1 with
    | none => simp [CtrlResult.shrinks]
    | some q2 =>
      obtain ⟨params, l2⟩ := q2
      have hp2 := twi_parts _ _ _ _ h2
      dsimp only
      cases l2 with
      | nil => simp [CtrlResult.shrinks]
      | cons t l3 =>
        dsimp only
        have hlen : l3.length < l.length := by
          rw [hp1, hp2]
          simp
          omega
        by_cases ht : t = 0x07
        · rw [if_pos ht]
          by_cases hsemi : params.head? = some 0x3B
          · rw [if_pos hsemi]
            by_cases hqm : params.tail = [0x3F]
            · rw [if_pos hqm]
              simp [CtrlResult.shrinks, hlen]
            · rw [if_neg hqm]
              cases ha : argSingle numbers with
              | none => simp [CtrlResult.shrinks, hlen]
              | some v =>
                dsimp only
                by_cases h0 : withDefault 0 v = 0
                · rw [if_pos h0]; simp [CtrlResult.shrinks, hlen]
                · rw [if_neg h0]
                  by_cases hv1 : withDefault 0 v = 1
                  · rw [if_pos hv1]; simp [CtrlResult.shrinks, hlen]
                  · rw [if_neg hv1]
                    by_cases hv2 : withDefault 0 v = 2
                    · rw [if_pos hv2]; simp [CtrlResult.shrinks, hlen]
                    · rw [if_neg hv2]
                      by_cases hv3 : withDefault 0 v = 3
                      · rw [if_pos hv3]; simp [CtrlResult.shrinks, hlen]
                      · rw [if_neg hv3]; simp [CtrlResult.shrinks, hlen]
          · rw [if_neg hsemi]
            simp [CtrlResult.shrinks, hlen]
        · rw [if_neg ht]
          simp [CtrlResult.shrinks, hlen]

/-- The escape-sequence parser is insensitive to bytes after the sequence
it consumes. -/
theorem pes_ext (l e : List Nat) (h : parse_escape_sequence l ≠ .incomplete) :
    parse_escape_sequence (l ++ e) = (parse_escape_sequence l).extendBy e := by
  rw [parse_escape_sequence.eq_def] at h ⊢
  rw [parse_escape_sequence.eq_def]
  cases l with
  | nil => simp at h
  | cons b rest =>
    rw [List.cons_append]
    dsimp only at h ⊢
    by_cases hb : b = 0x5B
    · rw [if_pos hb] at h ⊢
      rw [if_pos hb]
      exact pecs_ext rest e h
    · rw [if_neg hb] at h ⊢
      rw [if_neg hb]
      by_cases hb2 : b = 0x5D
      · rw [if_pos hb2] at h ⊢
        rw [if_pos hb2]
        exact posc_ext rest e h
      · rw [if_neg hb2] at h ⊢
        rw [if_neg hb2]
        by_cases hb3 : b = 0x28
        · rw [if_pos hb3] at h ⊢
          rw [if_pos hb3]
          cases rest with
          | nil => simp at h
          | cons b2 r2 => rfl
        · rw [if_neg hb3] at h ⊢
          rw [if_neg hb3]
          rfl

/-- The escape-sequence parser consumes at least one byte on a decision. -/
theorem pes_shrinks (l : List Nat) : (parse_escape_sequence l).shrinks l := by
  rw [parse_escape_sequence.eq_def]
  cases l with
  | nil => simp [CtrlResult.shrinks]
  | cons b rest =>
    dsimp only
    by_cases hb : b = 0x5B
    · rw [if_pos hb]
      have := pecs_shrinks rest
      cases hres : parse_escape_control_sequence rest with
      | ok c r =>
        rw [hres] at this
        simp [CtrlResult.shrinks] at this ⊢
        omega
      | incomplete => simp [CtrlResult.shrinks]
      | invalid c r =>
        rw [hres] at this
        simp [CtrlResult.shrinks] at this ⊢
        omega
    · rw [if_neg hb]
      by_cases hb2 : b = 0x5D
      · rw [if_pos hb2]
        have := posc_shrinks rest
        cases hres : parse_operating_system_command rest with
        | ok c r =>
          rw [hres] at this
          simp [CtrlResult.shrinks] at this ⊢
          omega
        | incomplete => simp [CtrlResult.shrinks]
        | invalid c r =>
          rw [hres] at this
          simp [CtrlResult.shrinks] at this ⊢
          omega
      · rw [if_neg hb2]
        by_cases hb3 : b = 0x28
        · rw [if_pos hb3]
          cases rest with
          | nil => simp [CtrlResult.shrinks]
          | cons b2 r2 =>
            simp [CtrlResult.shrinks]
            omega
        · rw [if_neg hb3]
          simp [CtrlResult.shrinks]

/-- `parse_control_sequence` is insensitive to bytes after the sequence it
consumes. -/
theorem pcs_ext (l e : List Nat) (h : parse_control_sequence l ≠ .incomplete) :
    parse_control_sequence (l ++ e) = (parse_control_sequence l).extendBy e := by
  rw [parse_control_sequence.eq_def] at h ⊢
  rw [parse_control_sequence.eq_def]
  cases l with
  | nil => simp at h
  | cons b rest =>
    rw [List.cons_append]
    dsimp only at h ⊢
    by_cases h7 : b = 0x07
    · simp [h7, CtrlResult.extendBy]
    · rw [if_neg h7] at h ⊢; rw [if_neg h7]
      by_cases h8 : b = 0x08
      · simp [h7, h8, CtrlResult.extendBy]
      · rw [if_neg h8] at h ⊢; rw [if_neg h8]
        by_cases h9 : b = 0x09
        · simp [h7, h8, h9, CtrlResult.extendBy]
        · rw [if_neg h9] at h ⊢; rw [if_neg h9]
          by_cases hd : b = 0x0D
          · simp [h7, h8, h9, hd, CtrlResult.extendBy]
          · rw [if_neg hd] at h ⊢; rw [if_neg hd]
            by_cases ha : b = 0x0A
            · simp [h7, h8, h9, hd, ha, CtrlResult.extendBy]
            · rw [if_neg ha] at h ⊢; rw [if_neg ha]
              by_cases he : b = 0x1B
              · rw [if_pos he] at h ⊢
                rw [if_pos he]
                exact pes_ext rest e h
              · rw [if_neg he] at h ⊢
                rw [if_neg he]
                rfl

/-- `parse_control_sequence` consumes at least one byte on a decision. -/
theorem pcs_shrinks (l : List Nat) : (parse_control_sequence l).shrinks l := by
  rw [parse_control_sequence.eq_def]
  cases l with
  | nil => simp [CtrlResult.shrinks]
  | cons b rest =>
    dsimp only
    by_cases h7 : b = 0x07
    · rw [if_pos h7]; simp [CtrlResult.shrinks]
    · rw [if_neg h7]
      by_cases h8 : b = 0x08
      · rw [if_pos h8]; simp [CtrlResult.shrinks]
      · rw [if_neg h8]
        by_cases h9 : b = 0x09
        · rw [if_pos h9]; simp [CtrlResult.shrinks]
        · rw [if_neg h9]
          by_cases hd : b = 0x0D
          · rw [if_pos hd]; simp [CtrlResult.shrinks]
          · rw [if_neg hd]
            by_cases ha : b = 0x0A
            · rw [if_pos ha]; simp [CtrlResult.shrinks]
            · rw [if_neg ha]
              by_cases he : b = 0x1B
              · rw [if_pos he]
                have := pes_shrinks rest
                cases hres : parse_escape_sequence rest with
                | ok c r =>
                  rw [hres] at this
                  simp [CtrlResult.shrinks] at this ⊢
                  omega
                | incomplete => simp [CtrlResult.shrinks]
                | invalid c r =>
                  rw [hres] at this
                  simp [CtrlResult.shrinks] at this ⊢
                  omega
              · rw [if_neg he]
                simp [CtrlResult.shrinks]

/-! ## Chunk-boundary invariance: the main `parse` loop -/

/-- `parse` on the empty slice, for any fuel. -/
theorem parseF_nil (f : Nat) : parseF f [] = ([], []) := by
  cases f <;> rfl

/-- One unfold of the fuelled `parse` loop on a nonempty input. -/
theorem parseF_succ (f : Nat) (b : Nat) (rest : List Nat) :
    parseF (f + 1) (b :: rest) =
      (match (b :: rest).dropWhile notCtrl with
      | [] => emit_text ((b :: rest).takeWhile notCtrl)
      | _ :: _ =>
        match parse_control_sequence ((b :: rest).dropWhile notCtrl) with
        | .ok cc rest2 =>
          ((emit_text ((b :: rest).takeWhile notCtrl)).1 ++
            utf8Flush (emit_text ((b :: rest).takeWhile notCtrl)).2 ++ cc ++
            (parseF f rest2).1, (parseF f rest2).2)
        | .incomplete =>
          ((emit_text ((b :: rest).takeWhile notCtrl)).1 ++
            utf8Flush (emit_text ((b :: rest).takeWhile notCtrl)).2,
            (b :: rest).dropWhile notCtrl)
        | .invalid cc rest2 =>
          ((emit_text ((b :: rest).takeWhile notCtrl)).1 ++
            utf8Flush (emit_text ((b :: rest).takeWhile notCtrl)).2 ++ cc ++
            .invalidControlSequence
              (((b :: rest).dropWhile notCtrl).take
                (((b :: rest).dropWhile notCtrl).length - rest2.length)) ::
            (parseF f rest2).1, (parseF f rest2).2)) := by
  rw [parseF] <;> simp

/-- A head of the dropped part falsifies the predicate. -/
theorem dw_head (p : Nat → Bool) : ∀ (l : List Nat) (b : Nat) (t : List Nat),
    l.dropWhile p = b :: t → p b = false := by
  intro l
  induction l with
  | nil => intro b t h; simp [List.dropWhile] at h
  | cons x xs ih =>
    intro b t h
    rw [List.dropWhile] at h
    revert h
    cases hp : p x <;> intro h <;> dsimp only at h
    · cases h
      exact hp
    · exact ih b t h

/-- Dropping a prefix cannot lengthen a list. -/
theorem dw_len (p : Nat → Bool) : ∀ (l : List Nat), (l.dropWhile p).length ≤ l.length := by
  intro l
  induction l with
  | nil => simp
  | cons x xs ih =>
    rw [List.dropWhile]
    cases p x <;> dsimp only <;> simp
    omega

/-- `takeWhile`/`dropWhile` of an all-satisfying block followed by an empty
or head-falsifying suffix. -/
theorem tw_dw_app (p : Nat → Bool) : ∀ (v S : List Nat),
    (∀ x ∈ v, p x = true) →
    (S = [] ∨ ∃ s0 S2, S = s0 :: S2 ∧ p s0 = false) →
    (v ++ S).takeWhile p = v ∧ (v ++ S).dropWhile p = S := by
  intro v
  induction v with
  | nil =>
    intro S hv hS
    rcases hS with h | ⟨s0, S2, hS, hs0⟩
    · subst h
      simp
    · subst hS
      simp [List.takeWhile, List.dropWhile, hs0]
  | cons x xs ih =>
    intro S hv hS
    have hx : p x = true := hv x (by simp)
    have := ih S (fun y hy => hv y (by simp [hy])) hS
    simp only [List.cons_append, List.takeWhile, List.dropWhile, hx]
    simp [this.1, this.2]

/-- Any fuel of at least the length of the input gives the same `parse`. -/
theorem parseF_adequacy : ∀ (f : Nat) (g : Nat) (bytes : List Nat),
    bytes.length ≤ f → bytes.length ≤ g → parseF f bytes = parseF g bytes := by
  intro f
  induction f with
  | zero =>
    intro g bytes hf hg
    have : bytes = [] := List.eq_nil_of_length_eq_zero (by omega)
    subst this
    rw [parseF_nil, parseF_nil]
  | succ f ih =>
    intro g bytes hf hg
    match bytes with
    | [] => rw [parseF_nil, parseF_nil]
    | b :: rest =>
      match g with
      | 0 => simp at hg
      | g + 1 =>
        rw [parseF_succ, parseF_succ]
        have hdlen : ((b :: rest).dropWhile notCtrl).length ≤ (b :: rest).length :=
          dw_len notCtrl (b :: rest)
        cases hrest : (b :: rest).dropWhile notCtrl with
        | nil => rfl
        | cons r0 rrest =>
          have hshr := pcs_shrinks (r0 :: rrest)
          cases hp : parse_control_sequence (r0 :: rrest) with
          | ok cc rest2 =>
            rw [hp] at hshr
            simp only [CtrlResult.shrinks] at hshr
            rw [hrest] at hdlen
            have h1 : rest2.length ≤ f := by
              simp at hf hdlen hshr ⊢
              omega
            have h2 : rest2.length ≤ g := by
              simp at hg hdlen hshr ⊢
              omega
            dsimp only
            rw [ih g rest2 h1 h2]
          | incomplete => rfl
          | invalid cc rest2 =>
            rw [hp] at hshr
            simp only [CtrlResult.shrinks] at hshr
            rw [hrest] at hdlen
            have h1 : rest2.length ≤ f := by
              simp at hf hdlen hshr ⊢
              omega
            have h2 : rest2.length ≤ g := by
              simp at hg hdlen hshr ⊢
              omega
            dsimp only
            rw [ih g rest2 h1 h2]

/-- `parse` on pure text is `emit_text`. -/
theorem parse_text_only (v : List Nat) (hv : ∀ x ∈ v, notCtrl x = true) :
    parse v = emit_text v := by
  match v with
  | [] => rw [show parse [] = parseF 0 [] from rfl, parseF_nil]; rfl
  | b :: rest =>
    have htd := tw_dw_app notCtrl (b :: rest) [] (by simpa using hv) (Or.inl rfl)
    simp only [List.append_nil] at htd
    rw [show parse (b :: rest) = parseF (rest.length + 1) (b :: rest) from by
      rw [parse, show (b :: rest).length = rest.length + 1 from by simp]]
    rw [parseF_succ, htd.2, htd.1]

/-- One unfold of `parse` on a nonempty input, with full fuel restored in
the recursive positions. -/
theorem parse_unfold_ne (bytes : List Nat) (hne : bytes ≠ []) :
    parse bytes =
      (match bytes.dropWhile notCtrl with
      | [] => emit_text (bytes.takeWhile notCtrl)
      | _ :: _ =>
        match parse_control_sequence (bytes.dropWhile notCtrl) with
        | .ok cc rest2 =>
          ((emit_text (bytes.takeWhile notCtrl)).1 ++
            utf8Flush (emit_text (bytes.takeWhile notCtrl)).2 ++ cc ++
            (parse rest2).1, (parse rest2).2)
        | .incomplete =>
          ((emit_text (bytes.takeWhile notCtrl)).1 ++
            utf8Flush (emit_text (bytes.takeWhile notCtrl)).2,
            bytes.dropWhile notCtrl)
        | .invalid cc rest2 =>
          ((emit_text (bytes.takeWhile notCtrl)).1 ++
            utf8Flush (emit_text (bytes.takeWhile notCtrl)).2 ++ cc ++
            .invalidControlSequence
              ((bytes.dropWhile notCtrl).take
                ((bytes.dropWhile notCtrl).length - rest2.length)) ::
            (parse rest2).1, (parse rest2).2)) := by
  match bytes with
  | [] => exact absurd rfl hne
  | b :: rest =>
    rw [show parse (b :: rest) = parseF (rest.length + 1) (b :: rest) from by
      rw [parse, show (b :: rest).length = rest.length + 1 from by simp]]
    rw [parseF_succ]
    have hdlen : ((b :: rest).dropWhile notCtrl).length ≤ (b :: rest).length :=
      dw_len notCtrl (b :: rest)
    cases hrest : (b :: rest).dropWhile notCtrl with
    | nil => rfl
    | cons r0 rrest =>
      have hshr := pcs_shrinks (r0 :: rrest)
      rw [hrest] at hdlen
      cases hp : parse_control_sequence (r0 :: rrest) with
      | ok cc rest2 =>
        rw [hp] at hshr
        simp only [CtrlResult.shrinks] at hshr
        dsimp only
        rw [show parseF rest.length rest2 = parse rest2 from
          parseF_adequacy _ _ _ (by simp at hdlen hshr ⊢; omega) (Nat.le_refl _)]
      | incomplete => rfl
      | invalid cc rest2 =>
        rw [hp] at hshr
        simp only [CtrlResult.shrinks] at hshr
        dsimp only
        rw [show parseF rest.length rest2 = parse rest2 from
          parseF_adequacy _ _ _ (by simp at hdlen hshr ⊢; omega) (Nat.le_refl _)]

/-- `parse` on an input starting with a control byte, when the control
sequence is complete and valid. -/
theorem parse_ctrl_ok (s0 : Nat) (S2 : List Nat) (hs0 : notCtrl s0 = false)
    (cc : List Cmd) (r : List Nat)
    (hp : parse_control_sequence (s0 :: S2) = .ok cc r) :
    parse (s0 :: S2) = (cc ++ (parse r).1, (parse r).2) := by
  have htd := tw_dw_app notCtrl [] (s0 :: S2) (by simp) (Or.inr ⟨s0, S2, rfl, hs0⟩)
  simp only [List.nil_append] at htd
  rw [parse_unfold_ne (s0 :: S2) (by simp), htd.1, htd.2, hp]
  dsimp only
  rw [show emit_text [] = ([], []) from rfl]
  simp [utf8Flush]

/-- `parse` on an input starting with a control byte, when the control
sequence is incomplete: nothing is emitted, everything is unconsumed. -/
theorem parse_ctrl_inc (s0 : Nat) (S2 : List Nat) (hs0 : notCtrl s0 = false)
    (hp : parse_control_sequence (s0 :: S2) = .incomplete) :
    parse (s0 :: S2) = ([], s0 :: S2) := by
  have htd := tw_dw_app notCtrl [] (s0 :: S2) (by simp) (Or.inr ⟨s0, S2, rfl, hs0⟩)
  simp only [List.nil_append] at htd
  rw [parse_unfold_ne (s0 :: S2) (by simp), htd.1, htd.2, hp]
  dsimp only
  rw [show emit_text [] = ([], []) from rfl]
  simp [utf8Flush]

/-- `parse` on an input starting with a control byte, when the control
sequence is invalid: the sink calls made so far, then the diagnostic with
the consumed bytes, then the rest. -/
theorem parse_ctrl_inv (s0 : Nat) (S2 : List Nat) (hs0 : notCtrl s0 = false)
    (cc : List Cmd) (r : List Nat)
    (hp : parse_control_sequence (s0 :: S2) = .invalid cc r) :
    parse (s0 :: S2) =
      (cc ++ .invalidControlSequence ((s0 :: S2).take ((s0 :: S2).length - r.length)) ::
        (parse r).1, (parse r).2) := by
  have htd := tw_dw_app notCtrl [] (s0 :: S2) (by simp) (Or.inr ⟨s0, S2, rfl, hs0⟩)
  simp only [List.nil_append] at htd
  rw [parse_unfold_ne (s0 :: S2) (by simp), htd.1, htd.2, hp]
  dsimp only
  rw [show emit_text [] = ([], []) from rfl]
  simp [utf8Flush]

/-- Splitting off a leading pure-text block: `parse (v ++ S)` flushes the
text of `v` (and any invalid trailing bytes) and continues as `parse S`,
when `S` starts with a control byte. -/
theorem parse_split (v : List Nat) (s0 : Nat) (S2 : List Nat)
    (hv : ∀ x ∈ v, notCtrl x = true) (hs0 : notCtrl s0 = false) :
    parse (v ++ s0 :: S2) =
      ((emit_text v).1 ++ utf8Flush (emit_text v).2 ++ (parse (s0 :: S2)).1,
        (parse (s0 :: S2)).2) := by
  have htd := tw_dw_app notCtrl v (s0 :: S2) hv (Or.inr ⟨s0, S2, rfl, hs0⟩)
  rw [parse_unfold_ne (v ++ s0 :: S2) (by simp), htd.1, htd.2]
  dsimp only
  cases hp : parse_control_sequence (s0 :: S2) with
  | ok cc r =>
    rw [parse_ctrl_ok s0 S2 hs0 cc r hp]
    dsimp only
    simp [List.append_assoc]
  | incomplete =>
    rw [parse_ctrl_inc s0 S2 hs0 hp]
    dsimp only
    simp
  | invalid cc r =>
    rw [parse_ctrl_inv s0 S2 hs0 cc r hp]
    dsimp only
    simp [List.append_assoc]

/-- Gluing expansions: a common tail can be carried through an expansion
equality of the front parts. -/
theorem expand_glue (a b c r : List Cmd) (h : expand (a ++ b) = expand c) :
    expand (a ++ (b ++ r)) = expand (c ++ r) := by
  have h2 : expand a ++ expand b = expand c := by rw [← expand_append, h]
  simp only [expand_append]
  rw [← List.append_assoc, h2]

/-- Chunk-boundary invariance of `parse`, bounded form: feeding any byte
list in two chunks at any split point — re-prepending the unconsumed tail
of the first chunk — produces the same sink calls as the whole list up to
re-chunking of text calls, and the same final unconsumed tail. -/
theorem parse_chunk_bounded : ∀ (N : Nat) (bytes : List Nat) (k : Nat), bytes.length ≤ N →
    expand ((parse (bytes.take k)).1 ++ (parse ((parse (bytes.take k)).2 ++ bytes.drop k)).1)
      = expand ((parse bytes).1)
    ∧ (parse ((parse (bytes.take k)).2 ++ bytes.drop k)).2 = (parse bytes).2 := by
  intro N
  induction N with
  | zero =>
    intro bytes k hl
    have : bytes = [] := List.eq_nil_of_length_eq_zero (by omega)
    subst this
    simp [show parse [] = ([], []) from rfl]
  | succ N ih =>
    intro bytes k hl
    have hsplit : bytes.takeWhile notCtrl ++ bytes.dropWhile notCtrl = bytes :=
      List.takeWhile_append_dropWhile notCtrl bytes
    have hv : ∀ x ∈ bytes.takeWhile notCtrl, notCtrl x = true :=
      fun x hx => List.mem_takeWhile_imp hx
    cases hS : bytes.dropWhile notCtrl with
    | nil =>
      have hrun : bytes.takeWhile notCtrl = bytes := by
        conv_rhs => rw [← hsplit]
        rw [hS, List.append_nil]
      have hvb : ∀ x ∈ bytes, notCtrl x = true := fun x hx => hv x (by rw [hrun]; exact hx)
      have h1 : parse bytes = emit_text bytes := parse_text_only bytes hvb
      have h2 : parse (bytes.take k) = emit_text (bytes.take k) :=
        parse_text_only _ (fun x hx => hvb x (List.mem_of_mem_take hx))
      have h3 : parse ((emit_text (bytes.take k)).2 ++ bytes.drop k)
          = emit_text ((emit_text (bytes.take k)).2 ++ bytes.drop k) := by
        obtain ⟨m, hm, hres⟩ := et_res_suffix (bytes.take k).length (bytes.take k) (Nat.le_refl _)
        refine parse_text_only _ ?_
        intro x hx
        rcases List.mem_append.mp hx with hx | hx
        · rw [hres] at hx
          exact hvb x (List.mem_of_mem_take (List.mem_of_mem_drop hx))
        · exact hvb x (List.mem_of_mem_drop hx)
      rw [h2, h3, h1]
      exact et_chunk bytes.length bytes k (Nat.le_refl _)
    | cons s0 S2 =>
      have hs0 : notCtrl s0 = false := dw_head notCtrl bytes s0 S2 hS
      have hbytes : bytes = bytes.takeWhile notCtrl ++ s0 :: S2 := by
        rw [← hS, hsplit]
      have hblen : bytes.length = (bytes.takeWhile notCtrl).length + (S2.length + 1) := by
        conv_lhs => rw [hbytes]
        simp
      by_cases hk : k ≤ (bytes.takeWhile notCtrl).length
      · -- split point inside (or at the end of) the leading text run
        have htake : bytes.take k = (bytes.takeWhile notCtrl).take k := by
          conv_lhs => rw [hbytes]
          exact List.take_append_of_le_length hk
        have hdropk : bytes.drop k = (bytes.takeWhile notCtrl).drop k ++ s0 :: S2 := by
          conv_lhs => rw [hbytes]
          exact List.drop_append_of_le_length hk
        have hc1 : parse (bytes.take k) = emit_text ((bytes.takeWhile notCtrl).take k) := by
          rw [htake]
          exact parse_text_only _ (fun x hx => hv x (List.mem_of_mem_take hx))
        have hv2 : ∀ x ∈ (emit_text ((bytes.takeWhile notCtrl).take k)).2 ++
            (bytes.takeWhile notCtrl).drop k, notCtrl x = true := by
          obtain ⟨m, hm, hres⟩ := et_res_suffix ((bytes.takeWhile notCtrl).take k).length _
            (Nat.le_refl _)
          intro x hx
          rcases List.mem_append.mp hx with hx | hx
          · rw [hres] at hx
            exact hv x (List.mem_of_mem_take (List.mem_of_mem_drop hx))
          · exact hv x (List.mem_of_mem_drop hx)
        have hinput2 : (parse (bytes.take k)).2 ++ bytes.drop k
            = ((emit_text ((bytes.takeWhile notCtrl).take k)).2 ++
              (bytes.takeWhile notCtrl).drop k) ++ s0 :: S2 := by
          rw [hc1, hdropk, List.append_assoc]
        have hC2 := parse_split ((emit_text ((bytes.takeWhile notCtrl).take k)).2 ++
          (bytes.takeWhile notCtrl).drop k) s0 S2 hv2 hs0
        have hW := parse_split (bytes.takeWhile notCtrl) s0 S2 hv hs0
        have hec := et_chunk (bytes.takeWhile notCtrl).length (bytes.takeWhile notCtrl) k
          (Nat.le_refl _)
        constructor
        · rw [hinput2, hC2]
          conv_rhs => rw [hbytes]
          rw [hW, hc1]
          rw [show utf8Flush (emit_text ((emit_text ((bytes.takeWhile notCtrl).take k)).2 ++
            (bytes.takeWhile notCtrl).drop k)).2
              = utf8Flush (emit_text (bytes.takeWhile notCtrl)).2 from by rw [hec.2]]
          simp only [List.append_assoc]
          exact expand_glue _ _ _ _ hec.1
        · rw [hinput2, hC2]
          conv_rhs => rw [hbytes]
          rw [hW]
      · -- split point inside the control sequence or beyond
        push_neg at hk
        have hk' : k = (bytes.takeWhile notCtrl).length + (k - (bytes.takeWhile notCtrl).length)
          := by omega
        obtain ⟨k2, hk2⟩ : ∃ k2, k - (bytes.takeWhile notCtrl).length = k2 + 1 :=
          ⟨k - (bytes.takeWhile notCtrl).length - 1, by omega⟩
        have htake : bytes.take k = bytes.takeWhile notCtrl ++ (s0 :: S2.take k2) := by
          conv_lhs => rw [hbytes, hk']
          rw [List.take_append, hk2, List.take_succ_cons]
        have hdropk : bytes.drop k = S2.drop k2 := by
          conv_lhs => rw [hbytes, hk']
          rw [List.drop_append, hk2, List.drop_succ_cons]
        have hc1split := parse_split (bytes.takeWhile notCtrl) s0 (S2.take k2) hv hs0
        have hW := parse_split (bytes.takeWhile notCtrl) s0 S2 hv hs0
        cases hp1 : parse_control_sequence (s0 :: S2.take k2) with
        | incomplete =>
          have hcin := parse_ctrl_inc s0 (S2.take k2) hs0 hp1
          rw [hcin] at hc1split
          have hc1 : parse (bytes.take k)
              = ((emit_text (bytes.takeWhile notCtrl)).1 ++
                utf8Flush (emit_text (bytes.takeWhile notCtrl)).2, s0 :: S2.take k2) := by
            rw [htake, hc1split]
            simp
          have hinput2 : (parse (bytes.take k)).2 ++ bytes.drop k = s0 :: S2 := by
            rw [hc1, hdropk]
            simp only
            rw [List.cons_append, List.take_append_drop]
          constructor
          · rw [hinput2, hc1]
            conv_rhs => rw [hbytes]
            rw [hW]
          · rw [hinput2]
            conv_rhs => rw [hbytes]
            rw [hW]
        | ok cc r =>
          have hshr := pcs_shrinks (s0 :: S2.take k2)
          rw [hp1] at hshr
          simp only [CtrlResult.shrinks] at hshr
          have hpS : parse_control_sequence (s0 :: S2) = .ok cc (r ++ S2.drop k2) := by
            have hx := pcs_ext (s0 :: S2.take k2) (S2.drop k2) (by rw [hp1]; simp)
            rw [hp1] at hx
            rw [show (s0 :: S2.take k2) ++ S2.drop k2 = s0 :: S2 from by
              rw [List.cons_append, List.take_append_drop]] at hx
            simpa [CtrlResult.extendBy] using hx
          have hcin := parse_ctrl_ok s0 (S2.take k2) hs0 cc r hp1
          have hWin := parse_ctrl_ok s0 S2 hs0 cc (r ++ S2.drop k2) hpS
          have hlen2 : (r ++ S2.drop k2).length ≤ N := by
            have h1 : (S2.take k2).length = min k2 S2.length := List.length_take ..
            simp only [List.length_append, List.length_drop]
            simp only [List.length_cons, h1] at hshr
            omega
          have hIH := ih (r ++ S2.drop k2) r.length hlen2
          rw [List.take_left, List.drop_left] at hIH
          have hc1 : parse (bytes.take k)
              = ((emit_text (bytes.takeWhile notCtrl)).1 ++
                  utf8Flush (emit_text (bytes.takeWhile notCtrl)).2 ++
                  (cc ++ (parse r).1), (parse r).2) := by
            rw [htake, hc1split, hcin]
          have hWhole : parse bytes
              = ((emit_text (bytes.takeWhile notCtrl)).1 ++
                  utf8Flush (emit_text (bytes.takeWhile notCtrl)).2 ++
                  (cc ++ (parse (r ++ S2.drop k2)).1), (parse (r ++ S2.drop k2)).2) := by
            conv_lhs => rw [hbytes]
            rw [hW, hWin]
          constructor
          · rw [hc1, hWhole, hdropk]
            simp only [List.append_assoc, expand_append]
            rw [show expand (parse r).1 ++
                expand (parse ((parse r).2 ++ S2.drop k2)).1
                = expand (parse (r ++ S2.drop k2)).1 from by
              rw [← expand_append, hIH.1]]
          · rw [hc1, hWhole, hdropk]
            simp only
            exact hIH.2
        | invalid cc r =>
          have hshr := pcs_shrinks (s0 :: S2.take k2)
          rw [hp1] at hshr
          simp only [CtrlResult.shrinks] at hshr
          have hpS : parse_control_sequence (s0 :: S2) = .invalid cc (r ++ S2.drop k2) := by
            have hx := pcs_ext (s0 :: S2.take k2) (S2.drop k2) (by rw [hp1]; simp)
            rw [hp1] at hx
            rw [show (s0 :: S2.take k2) ++ S2.drop k2 = s0 :: S2 from by
              rw [List.cons_append, List.take_append_drop]] at hx
            simpa [CtrlResult.extendBy] using hx
          have hcin := parse_ctrl_inv s0 (S2.take k2) hs0 cc r hp1
          have hWin := parse_ctrl_inv s0 S2 hs0 cc (r ++ S2.drop k2) hpS
          have hcnt : (s0 :: S2).length - (r ++ S2.drop k2).length
              = (s0 :: S2.take k2).length - r.length := by
            have h1 : (S2.take k2).length = min k2 S2.length := List.length_take ..
            simp only [List.length_cons, h1] at hshr ⊢
            simp only [List.length_append, List.length_drop]
            omega
          have hcons : (s0 :: S2.take k2).take ((s0 :: S2.take k2).length - r.length)
              = (s0 :: S2).take ((s0 :: S2).length - (r ++ S2.drop k2).length) := by
            rw [hcnt]
            have hle : (s0 :: S2.take k2).length - r.length ≤ k2 + 1 := by
              have h1 : (S2.take k2).length ≤ k2 := List.length_take_le ..
              simp only [List.length_cons]
              omega
            set n := (s0 :: S2.take k2).length - r.length with hn
            rw [show s0 :: S2.take k2 = (s0 :: S2).take (k2 + 1) from by
              rw [List.take_succ_cons]]
            rw [List.take_take, Nat.min_eq_left hle]
          rw [hcons] at hcin
          have hlen2 : (r ++ S2.drop k2).length ≤ N := by
            have h1 : (S2.take k2).length = min k2 S2.length := List.length_take ..
            simp only [List.length_append, List.length_drop]
            simp only [List.length_cons, h1] at hshr
            omega
          have hIH := ih (r ++ S2.drop k2) r.length hlen2
          rw [List.take_left, List.drop_left] at hIH
          have hc1 : parse (bytes.take k)
              = ((emit_text (bytes.takeWhile notCtrl)).1 ++
                  utf8Flush (emit_text (bytes.takeWhile notCtrl)).2 ++
                  (cc ++ .invalidControlSequence
                    ((s0 :: S2).take ((s0 :: S2).length - (r ++ S2.drop k2).length)) ::
                    (parse r).1), (parse r).2) := by
            rw [htake, hc1split, hcin]
          have hWhole : parse bytes
              = ((emit_text (bytes.takeWhile notCtrl)).1 ++
                  utf8Flush (emit_text (bytes.takeWhile notCtrl)).2 ++
                  (cc ++ .invalidControlSequence
                    ((s0 :: S2).take ((s0 :: S2).length - (r ++ S2.drop k2).length)) ::
                    (parse (r ++ S2.drop k2)).1), (parse (r ++ S2.drop k2)).2) := by
            conv_lhs => rw [hbytes]
            rw [hW, hWin]
          constructor
          · rw [hc1, hWhole, hdropk]
            simp only [List.append_assoc, List.cons_append, expand_append, expand_cons]
            rw [show expand (parse r).1 ++
                expand (parse ((parse r).2 ++ S2.drop k2)).1
                = expand (parse (r ++ S2.drop k2)).1 from by
              rw [← expand_append, hIH.1]]
          · rw [hc1, hWhole, hdropk]
            simp only
            exact hIH.2

/-- C1, counterexample: splitting the two-byte input "AB" between the two
characters makes the chunked decoder emit two separate one-character
text calls, while decoding the whole input at once emits a single
two-character text call — the call sequences are not identical. -/
theorem c1_counterexample :
    parseChunked [65, 66] 1 = ([Cmd.text ['A'], Cmd.text ['B']], [])
    ∧ parse [65, 66] = ([Cmd.text ['A', 'B']], [])
    ∧ (parseChunked [65, 66] 1).1 ≠ (parse [65, 66]).1 := by
  refine ⟨by decide, by decide, by decide⟩

/-- C1 (amended): for every byte list and every split point, decoding in
two chunks — re-prepending the unconsumed tail of the first chunk to the
second, as `Screen::process_input` does with `residual_input` — produces
the same sink calls as decoding the whole list at once, up to re-chunking
of `text` calls (the two sequences are equal after expanding every `text`
call into one call per character), and leaves the same final unconsumed
tail. -/
theorem c1_amended (bytes : List Nat) (k : Nat) :
    expand (parseChunked bytes k).1 = expand (parse bytes).1
    ∧ (parseChunked bytes k).2 = (parse bytes).2 := by
  have h := parse_chunk_bounded bytes.length bytes k (Nat.le_refl _)
  exact ⟨by simpa [parseChunked, expand_append] using h.1,
    by simpa [parseChunked] using h.2⟩

/-- `util::take_while` on a list whose prefix all satisfies `p`, followed
by a byte that does not: it consumes exactly that prefix. -/
theorem takeWhileInc_append_stop (p : Nat → Bool) (l : List Nat) (t : Nat) (rest : List Nat)
    (hl : ∀ b ∈ l, p b = true) (ht : p t = false) :
    takeWhileInc p (l ++ t :: rest) = some (l, t :: rest) := by
  induction l with
  | nil => simp [takeWhileInc, ht]
  | cons b bs ih =>
    have hb : p b = true := hl b (by simp)
    have ih2 := ih (fun x hx => hl x (by simp [hx]))
    simp [takeWhileInc, hb, ih2]

/-- The SGR group loop stops at the first unrecognized group: it keeps the
sink calls of the groups before it and rejects the sequence; the
unrecognized group and everything after it contribute nothing. -/
theorem sgrGroups_reject (gs1 : List (List Nat)) (g : List Nat) (gs2 : List (List Nat))
    (hg : sgrGroup g = none) :
    sgrGroups (gs1 ++ g :: gs2) = ((sgrGroups gs1).1, false) := by
  induction gs1 with
  | nil => simp [sgrGroups, hg]
  | cons h t ih =>
    cases hh : sgrGroup h with
    | none => simp [sgrGroups, hh]
    | some c => simp [sgrGroups, hh, ih]

/-- C2 (amended): the decoder under `src/` has no arm for SGR codes 38 and
48.  For every CSI `m` parameter list (digits, `:` and `;`) one of whose
`;`-separated groups has code 38 or 48, that group is unrecognized and
produces no sink call of its own — in particular no colour call — the
group loop stops there keeping only the calls of the groups strictly
before it, the sequence as a whole is rejected, and the complete
`ESC [ params m` input is reported through a single
`invalid_control_sequence` call carrying all the consumed bytes. -/
theorem c2_amended (params : List Nat) (gs1 : List (List Nat)) (g : List Nat)
    (gs2 : List (List Nat))
    (hb : ∀ b ∈ params, 0x30 ≤ b ∧ b ≤ 0x3B)
    (hsplit : splitSep (fun b => b == 0x3B) params = gs1 ++ g :: gs2)
    (hcode : argSingle (firstSeg g) = some 38 ∨ argSingle (firstSeg g) = some 48) :
    sgrGroup g = none
    ∧ parse_character_attribute params = ((sgrGroups gs1).1, false)
    ∧ parse ([0x1B, 0x5B] ++ params ++ [0x6D])
        = ((sgrGroups gs1).1
            ++ [.invalidControlSequence ([0x1B, 0x5B] ++ params ++ [0x6D])], []) := by
  have hg : sgrGroup g = none := by
    rcases hcode with h | h <;> (unfold sgrGroup; rw [h]; decide)
  have hpca : parse_character_attribute params = ((sgrGroups gs1).1, false) := by
    rw [parse_character_attribute, hsplit, sgrGroups_reject gs1 g gs2 hg]
  refine ⟨hg, hpca, ?_⟩
  have h1 : takeWhileInc (fun b => 0x30 ≤ b && b ≤ 0x3F) (params ++ [0x6D])
      = some (params, [0x6D]) := by
    refine takeWhileInc_append_stop _ params 0x6D [] ?_ (by decide)
    intro b hbm
    have h := hb b hbm
    simp only [Bool.and_eq_true, decide_eq_true_eq]
    omega
  have hparts : parse_control_sequence_parts (params ++ [0x6D])
      = .ok params [] 0x6D [] := by
    unfold parse_control_sequence_parts
    rw [h1]
    dsimp only
    rw [show takeWhileInc (fun b => 0x20 ≤ b && b ≤ 0x2F) [0x6D]
      = some ([], [0x6D]) from by decide]
    dsimp only
    rw [if_pos (by decide)]
  have hhead : ¬ params.head? = some 0x3F := by
    intro hh
    cases params with
    | nil => simp at hh
    | cons a as =>
      simp only [List.head?, Option.some.injEq] at hh
      have := hb a (by simp)
      omega
  have hcsi : parse_escape_control_sequence (params ++ [0x6D])
      = .invalid (sgrGroups gs1).1 [] := by
    unfold parse_escape_control_sequence
    rw [hparts]
    dsimp only
    rw [if_pos (by decide), if_neg hhead]
    unfold parse_escape_standard_terminator
    rw [if_pos rfl, hpca]
    rfl
  have hpcs : parse_control_sequence (0x1B :: 0x5B :: (params ++ [0x6D]))
      = .invalid (sgrGroups gs1).1 [] := by
    rw [parse_control_sequence.eq_def]
    dsimp only
    rw [if_neg (by decide), if_neg (by decide), if_neg (by decide), if_neg (by decide),
      if_neg (by decide), if_pos rfl]
    rw [parse_escape_sequence.eq_def]
    dsimp only
    rw [if_pos rfl]
    exact hcsi
  have hfin := parse_ctrl_inv 0x1B (0x5B :: (params ++ [0x6D])) (by decide)
    (sgrGroups gs1).1 [] hpcs
  rw [show ([0x1B, 0x5B] ++ params ++ [0x6D] : List Nat)
    = 0x1B :: 0x5B :: (params ++ [0x6D]) from by simp]
  rw [hfin]
  simp [show parse [] = ([], []) from rfl, List.take_length]

/-- Witness for the amended C2 at the parameter list `38;5;196`: the
hypotheses hold concretely, the group `38` is rejected, and the whole
sequence becomes one `invalid_control_sequence` report with no colour
call. -/
theorem c2_amended_witness :
    (∀ b ∈ [0x33, 0x38, 0x3B, 0x35, 0x3B, 0x31, 0x39, 0x36], 0x30 ≤ b ∧ b ≤ 0x3B)
    ∧ splitSep (fun b => b == 0x3B) [0x33, 0x38, 0x3B, 0x35, 0x3B, 0x31, 0x39, 0x36]
        = [] ++ [0x33, 0x38] :: [[0x35], [0x31, 0x39, 0x36]]
    ∧ argSingle (firstSeg [0x33, 0x38]) = some 38
    ∧ (sgrGroup [0x33, 0x38] = none
       ∧ parse_character_attribute [0x33, 0x38, 0x3B, 0x35, 0x3B, 0x31, 0x39, 0x36]
           = ((sgrGroups ([] : List (List Nat))).1, false)
       ∧ parse ([0x1B, 0x5B] ++ [0x33, 0x38, 0x3B, 0x35, 0x3B, 0x31, 0x39, 0x36] ++ [0x6D])
           = ((sgrGroups ([] : List (List Nat))).1 ++ [.invalidControlSequence
               ([0x1B, 0x5B] ++ [0x33, 0x38, 0x3B, 0x35, 0x3B, 0x31, 0x39, 0x36]
                 ++ [0x6D])], [])) :=
  ⟨by decide, by decide, by decide,
    c2_amended [0x33, 0x38, 0x3B, 0x35, 0x3B, 0x31, 0x39, 0x36]
      [] [0x33, 0x38] [[0x35], [0x31, 0x39, 0x36]]
      (by decide) (by decide) (Or.inl (by decide))⟩
